import Mathlib

set_option maxRecDepth 100000

set_option allowUnsafeReducibility true

attribute [local semireducible] Rat.mul Rat.inv

/-!
Verification of the multi-send balance-change calculator (src/main.rs).

The Rust code is shallowly embedded as executable Lean definitions:

* `i128` amounts are modelled as unbounded `Int` (delta accumulation in the
  Rust code is ordinary `i128` arithmetic).
* `rust_decimal::Decimal` values are modelled as exact rationals (`Rat`).
  The fallible points of the source are preserved: `Decimal::from_i128`
  succeeds exactly when the magnitude fits in 96 bits, `checked_div` fails
  exactly on a zero divisor, and `ceil().to_i128()` fails outside the
  `i128` range.  Within `feeShare`, multiplication and division are exact
  rational operations: this agrees with the source exactly when every
  intermediate value is representable in `Decimal`'s format (mantissa
  below 2^96 at scale at most 28, the predicate `decRepresentable`), and
  the theorems that depend on the fee values carry that hypothesis.
  Outside that range the source saturates (`saturating_mul`) or rounds
  (division); `decSaturatingMul`/`feeShareSat` model the saturation to
  witness the divergence.
* `i128` sums in `get_coin_sum`/`get_filtered_coin_sum` are modelled as
  unbounded `Int` sums; `i128SumChecked`/`get_coin_sum_checked` model the
  source's overflow-checked sum (`none` = the addition aborts), and the
  bounded theorems prove the two agree on their hypothesis domain.
* `burn_rate`/`commission_rate` are carried as the rational value of the
  `Decimal` obtained from the `f64` rate (for the literal rates appearing
  in the repository, e.g. 0.08, `Decimal::from_f64` returns exactly that
  decimal fraction).
* The `HashMap<(String, String), i128>` delta map is modelled as an
  association list with unique keys; `entry().or_insert(0)` plus `+=` is
  `applyDelta`.  Building a `HashMap` from an iterator (`to_hashmap`)
  overwrites on duplicate keys, i.e. the last occurrence wins, which
  `hmInsert` reproduces.
-/

structure Coin where
  denom : String
  amount : Int
deriving DecidableEq, Repr

structure Balance where
  address : String
  coins : List Coin
deriving DecidableEq, Repr

structure DenomDefinition where
  denom : String
  issuer : String
  burn_rate : Rat
  commission_rate : Rat
deriving DecidableEq, Repr

structure MultiSend where
  inputs : List Balance
  outputs : List Balance
deriving DecidableEq, Repr

/-- `Vec<Coin>::find_coin`: first coin whose denom matches. -/
def find_coin (coins : List Coin) (denom : String) : Option Coin :=
  coins.find? (fun c => c.denom == denom)

/-- `Vec<Balance>::get_coin_sum`: sum of the first matching coin of each balance. -/
def get_coin_sum (balances : List Balance) (denom : String) : Int :=
  ((balances.filterMap (fun b => find_coin b.coins denom)).map (fun c => c.amount)).sum

/-- `Vec<Balance>::get_filtered_coin_sum`: like `get_coin_sum` but skipping
balances whose address is the definition's issuer. -/
def get_filtered_coin_sum (balances : List Balance) (d : DenomDefinition) : Int :=
  ((balances.filterMap (fun b =>
    if d.issuer == b.address then none else find_coin b.coins d.denom)).map
      (fun c => c.amount)).sum

abbrev DeltaKey := String × String

abbrev DeltaList := List (DeltaKey × Int)

/-- `changes.entry(k).or_insert(0) += v`: add `v` to the entry at `k`,
creating it (from 0) when absent. -/
def applyDelta : DeltaList → DeltaKey → Int → DeltaList
  | [], k, v => [(k, v)]
  | (k', v') :: rest, k, v =>
    if k' = k then (k', v' + v) :: rest
    else (k', v') :: applyDelta rest k v

/-- `HashMap::insert`: set the value at `k`, overwriting an existing entry. -/
def hmInsert : DeltaList → DeltaKey → Int → DeltaList
  | [], k, v => [(k, v)]
  | (k', v') :: rest, k, v =>
    if k' = k then (k, v) :: rest
    else (k', v') :: hmInsert rest k v

/-- `HashMap::get`. -/
def hmLookup : DeltaList → DeltaKey → Option Int
  | [], _ => none
  | (k', v') :: rest, k => if k' = k then some v' else hmLookup rest k

/-- `to_hashmap`: flatten balances to ((address, denom), amount) pairs and
collect them into a map; on duplicate keys the last occurrence wins. -/
def to_hashmap (balances : List Balance) : DeltaList :=
  (balances.flatMap (fun b =>
    b.coins.map (fun c => ((b.address, c.denom), c.amount)))).foldl
      (fun m kv => hmInsert m kv.1 kv.2) []

/-- `Decimal::from_i128` succeeds iff the value fits in the 96-bit mantissa. -/
def DECIMAL_LIMIT : Int := 2 ^ 96

def I128_MIN : Int := -(2 ^ 127)

def I128_MAX : Int := 2 ^ 127 - 1

/-- The per-input fee share computed in `process_input`'s loop:
`amount * rate`, scaled by `numerate / denominate` when the two differ,
then rounded up (`ceil`).  Multiplication and division are exact here;
this matches the source's `Decimal` chain exactly when every intermediate
is `decRepresentable` (see `feeShareSat` for the saturating behaviour
outside that range). -/
def feeShare (rate : Rat) (num den a : Int) : Int :=
  if den ≠ num then ⌈(a : Rat) * rate * ((num : Rat) / (den : Rat))⌉
  else ⌈(a : Rat) * rate⌉

/-- `Decimal::MAX`: the largest value of the 96-bit decimal type. -/
def DECIMAL_MAX : Int := 2 ^ 96 - 1

/-- `Decimal::saturating_mul`: the exact product when its magnitude fits
the type, `Decimal::MAX`/`MIN` when it overflows (rounding of in-range
products is not modelled). -/
def decSaturatingMul (x y : Rat) : Rat :=
  if ((DECIMAL_MAX : Int) : Rat) < x * y then ((DECIMAL_MAX : Int) : Rat)
  else if x * y < -((DECIMAL_MAX : Int) : Rat) then -((DECIMAL_MAX : Int) : Rat)
  else x * y

/-- The fee share as the source's saturating `Decimal` chain computes it:
`amount.saturating_mul(rate)`, then `.saturating_mul(numerate)` and the
division when the scaling branch is taken, then `ceil`. -/
def feeShareSat (rate : Rat) (num den a : Int) : Int :=
  if den ≠ num then
    ⌈decSaturatingMul (decSaturatingMul (a : Rat) rate) ((num : Int) : Rat) / ((den : Int) : Rat)⌉
  else ⌈decSaturatingMul (a : Rat) rate⌉

/-- A rational is exactly representable as a `Decimal`: an integer mantissa
of magnitude below 2^96 at a scale of at most 28 fractional digits.  On
such values the source's `Decimal` multiplications and divisions are exact,
so `feeShare` coincides with the source's computation. -/
def decRepresentable (q : Rat) : Prop :=
  ∃ m : Int, ∃ k : Nat, k ≤ 28 ∧ q * ((10 : Rat)) ^ k = (m : Rat) ∧ m.natAbs < 2 ^ 96

/-- One `i128` addition under overflow checks: `none` means the source's
addition aborts (panics). -/
def i128AddChecked (x y : Int) : Option Int :=
  if I128_MIN ≤ x + y ∧ x + y ≤ I128_MAX then some (x + y) else none

/-- The source's `.sum()` over `i128` under overflow checks: left fold of
checked additions starting from 0. -/
def i128SumChecked (xs : List Int) : Option Int :=
  xs.foldl (fun acc x => acc.bind (fun st => i128AddChecked st x)) (some 0)

/-- `get_coin_sum` as the source actually computes it: the same first-match
amounts, summed with overflow-checked `i128` addition. -/
def get_coin_sum_checked (balances : List Balance) (denom : String) : Option Int :=
  i128SumChecked ((balances.filterMap (fun b => find_coin b.coins denom)).map
    (fun c => c.amount))

/-- One iteration of `process_input`'s `for input in &self.inputs` loop,
with the failure points of the `Decimal` conversions and division. -/
def processInputEntry (d : DenomDefinition) (num den : Int) (changes : DeltaList)
    (input : Balance) : Except String DeltaList :=
  match find_coin input.coins d.denom with
  | none => .ok changes
  | some coin =>
    if ¬ (-DECIMAL_LIMIT < coin.amount ∧ coin.amount < DECIMAL_LIMIT) then
      .error "Decimal issue"
    else if den ≠ num ∧ ¬ (-DECIMAL_LIMIT < num ∧ num < DECIMAL_LIMIT ∧
        -DECIMAL_LIMIT < den ∧ den < DECIMAL_LIMIT) then
      .error "Decimal issue"
    else if den ≠ num ∧ den = 0 then
      .error "Calculation failure"
    else
      let burnt := feeShare d.burn_rate num den coin.amount
      let commission := feeShare d.commission_rate num den coin.amount
      if ¬ (I128_MIN ≤ burnt ∧ burnt ≤ I128_MAX) then .error "Decimal issue"
      else if ¬ (I128_MIN ≤ commission ∧ commission ≤ I128_MAX) then .error "Decimal issue"
      else
        .ok (applyDelta
          (applyDelta changes (input.address, d.denom) (-(burnt + commission + coin.amount)))
          (d.issuer, d.denom) commission)

def process_input_go (d : DenomDefinition) (num den : Int) :
    List Balance → DeltaList → Except String DeltaList
  | [], changes => .ok changes
  | input :: rest, changes =>
    match processInputEntry d num den changes input with
    | .error e => .error e
    | .ok changes' => process_input_go d num den rest changes'

/-- `MultiSend::process_input`. -/
def process_input (tx : MultiSend) (d : DenomDefinition) (changes : DeltaList) :
    Except String DeltaList :=
  let nIn := get_filtered_coin_sum tx.inputs d
  let nOut := get_filtered_coin_sum tx.outputs d
  let p := if nIn > nOut then (nIn, nOut) else (nOut, nIn)
  process_input_go d p.2 p.1 tx.inputs changes

def process_output_go (d : DenomDefinition) : List Balance → DeltaList → DeltaList
  | [], changes => changes
  | out :: rest, changes =>
    match find_coin out.coins d.denom with
    | none => process_output_go d rest changes
    | some coin =>
      process_output_go d rest (applyDelta changes (out.address, coin.denom) coin.amount)

/-- `MultiSend::process_output`. -/
def process_output (tx : MultiSend) (d : DenomDefinition) (changes : DeltaList) : DeltaList :=
  process_output_go d tx.outputs changes

/-- `MultiSend::validate_inout`. -/
def validate_inout (tx : MultiSend) (d : DenomDefinition) : Except String Unit :=
  if get_coin_sum tx.inputs d.denom ≠ get_coin_sum tx.outputs d.denom then
    .error "Input and output mismatch"
  else .ok ()

/-- `MultiSend::process`: per definition, validate then process inputs and outputs. -/
def MultiSend.process (tx : MultiSend) (defs : List DenomDefinition) (changes : DeltaList) :
    Except String DeltaList :=
  match defs with
  | [] => .ok changes
  | d :: rest =>
    match validate_inout tx d with
    | .error e => .error e
    | .ok _ =>
      match process_input tx d changes with
      | .error e => .error e
      | .ok ch => tx.process rest (process_output tx d ch)

/-- The body of the solvency loop of `calculate_balance_changes`: an entry is
insolvent when its delta is negative and the original balance is absent or
smaller than the deduction. -/
def insolventEntry (origMap : DeltaList) (kv : DeltaKey × Int) : Bool :=
  if kv.2 ≥ 0 then false
  else
    match hmLookup origMap kv.1 with
    | none => true
    | some origin => origin < -kv.2

/-- `from_hashmap`'s inner update: append the coin to the balance of this
address, creating the balance when absent. -/
def pushCoin : List Balance → String → Coin → List Balance
  | [], addr, c => [⟨addr, [c]⟩]
  | b :: rest, addr, c =>
    if b.address = addr then ⟨b.address, b.coins ++ [c]⟩ :: rest
    else b :: pushCoin rest addr c

def from_hashmap_go : DeltaList → List Balance → List Balance
  | [], bs => bs
  | (k, v) :: rest, bs =>
    if v = 0 then from_hashmap_go rest bs
    else from_hashmap_go rest (pushCoin bs k.1 ⟨k.2, v⟩)

/-- `from_hashmap`: group the non-zero entries of the delta map into one
`Balance` per address. -/
def from_hashmap (m : DeltaList) : List Balance :=
  from_hashmap_go m []

/-- `calculate_balance_changes`. -/
def calculate_balance_changes (original_balances : List Balance)
    (definitions : List DenomDefinition) (multi_send_tx : MultiSend) :
    Except String (List Balance) :=
  match multi_send_tx.process definitions [] with
  | .error e => .error e
  | .ok m =>
    if m.any (insolventEntry (to_hashmap original_balances)) then
      .error "Insufficient balance"
    else .ok (from_hashmap m)

/-! Derived quantities used to state the claims. -/

/-- All coin amounts appearing in the transaction are non-negative. -/
def txAmountsNonneg (tx : MultiSend) : Prop :=
  ∀ b ∈ tx.inputs ++ tx.outputs, ∀ c ∈ b.coins, 0 ≤ c.amount

/-- Sum of the burn shares of a list of input balances at fixed num/den. -/
def burnSumGo (d : DenomDefinition) (num den : Int) (inputs : List Balance) : Int :=
  (inputs.map (fun input =>
    match find_coin input.coins d.denom with
    | none => 0
    | some coin => feeShare d.burn_rate num den coin.amount)).sum

/-- The aggregate burn assessed for one definition: the sum of the per-input
fee shares actually charged by `process_input`. -/
def total_burn (tx : MultiSend) (d : DenomDefinition) : Int :=
  let nIn := get_filtered_coin_sum tx.inputs d
  let nOut := get_filtered_coin_sum tx.outputs d
  let p := if nIn > nOut then (nIn, nOut) else (nOut, nIn)
  burnSumGo d p.2 p.1 tx.inputs

/-- Sum of the deltas of one denom over a delta map. -/
def sumForDenom (m : DeltaList) (denom : String) : Int :=
  (m.map (fun kv => if kv.1.2 = denom then kv.2 else 0)).sum

/-- Sum of the deltas of one denom over a list of balances. -/
def deltaSumForDenom (bs : List Balance) (denom : String) : Int :=
  (bs.map (fun b => (b.coins.map (fun c => if c.denom = denom then c.amount else 0)).sum)).sum

/-- The addresses of a list of balances, in order. -/
def addressesOf (bs : List Balance) : List String :=
  bs.map (fun b => b.address)

/-- All (address, coin) pairs carried by a list of balances. -/
def coinTriples (bs : List Balance) : List (String × Coin) :=
  bs.flatMap (fun b => b.coins.map (fun c => (b.address, c)))

/-- All (address, denom) pairs carried by a list of balances. -/
def pairsOf (bs : List Balance) : List DeltaKey :=
  (coinTriples bs).map (fun t => (t.1, t.2.denom))

/-! Concrete scenarios from the specification and the repository's tests. -/

/-- Scenario S2 original balances. -/
def obS2 : List Balance :=
  [⟨"account1", [⟨"denom1", 1000000⟩]⟩, ⟨"account2", [⟨"denom1", 1000000⟩]⟩]

/-- Scenario S2 denom definition: issuer A, burn 0.08, commission 0.12. -/
def defS2 : DenomDefinition := ⟨"denom1", "issuer_account_A", 2/25, 3/25⟩

/-- Scenario S2 transaction. -/
def txS2 : MultiSend :=
  ⟨[⟨"account1", [⟨"denom1", 650⟩]⟩, ⟨"account2", [⟨"denom1", 350⟩]⟩],
   [⟨"account_recipient", [⟨"denom1", 500⟩]⟩, ⟨"issuer_account_A", [⟨"denom1", 500⟩]⟩]⟩

/-- Issuer-as-sender input: the issuer I sends 100 alongside a regular
sender X; burn rate 1/2, commission 0. -/
def obIssuerIn : List Balance := [⟨"I", [⟨"d", 1000⟩]⟩, ⟨"X", [⟨"d", 1000⟩]⟩]

def defIssuerIn : DenomDefinition := ⟨"d", "I", 1/2, 0⟩

def txIssuerIn : MultiSend :=
  ⟨[⟨"I", [⟨"d", 100⟩]⟩, ⟨"X", [⟨"d", 100⟩]⟩], [⟨"Y", [⟨"d", 200⟩]⟩]⟩

/-- Issuer-to-issuer transfer: both non-issuer sums are zero. -/
def obIssuerOnly : List Balance := [⟨"I", [⟨"d", 1000⟩]⟩]

def txIssuerOnly : MultiSend := ⟨[⟨"I", [⟨"d", 100⟩]⟩], [⟨"I", [⟨"d", 100⟩]⟩]⟩

/-- Original balances with a duplicated denom inside one Balance: the first
coin holds 5, the second 0. -/
def obDupDenom : List Balance := [⟨"a", [⟨"d", 5⟩, ⟨"d", 0⟩]⟩]

def defZeroRates : DenomDefinition := ⟨"d", "I", 0, 0⟩

def txDupDenom : MultiSend := ⟨[⟨"a", [⟨"d", 5⟩]⟩], [⟨"b", [⟨"d", 5⟩]⟩]⟩

/-- Two definitions: the first denom is conserved but carries an amount of
2^96 (too large for `Decimal::from_i128`), the second denom is mismatched. -/
def defsBigThenMismatch : List DenomDefinition := [⟨"d1", "I", 0, 0⟩, ⟨"d2", "I", 0, 0⟩]

def txBigThenMismatch : MultiSend :=
  ⟨[⟨"a", [⟨"d1", 2 ^ 96⟩, ⟨"d2", 5⟩]⟩], [⟨"b", [⟨"d1", 2 ^ 96⟩]⟩]⟩

/-- A transfer whose outputs all go to the issuer: the non-issuer output
sum is 0, so num = min of the two non-issuer sums is 0. -/
def txAllToIssuer : MultiSend := ⟨[⟨"X", [⟨"d", 100⟩]⟩], [⟨"I", [⟨"d", 100⟩]⟩]⟩

/-- Scenario S3: sender with no original balance. -/
def obS3 : List Balance := [⟨"account1", ([] : List Coin)⟩]

def defS3 : DenomDefinition := ⟨"denom1", "issuer_account_A", 0, 0⟩

def txS3 : MultiSend :=
  ⟨[⟨"account1", [⟨"denom1", 350⟩]⟩], [⟨"account_recipient", [⟨"denom1", 350⟩]⟩]⟩

example : get_coin_sum [⟨"a", [⟨"d", 3⟩, ⟨"d", 4⟩]⟩, ⟨"b", [⟨"d", 5⟩]⟩] "d" = 8 := by decide

example :
    calculate_balance_changes [] [] ⟨[], []⟩ = .ok [] := rfl

/-- Saturation scenario: one non-issuer sender of 10^28 + 1 with burn rate
1.0; the issuer receives 1, so num = 10^28 and den = 10^28 + 1. -/
def defSatC2 : DenomDefinition := ⟨"d", "I", 1, 0⟩

def txSatC2 : MultiSend :=
  ⟨[⟨"X", [⟨"d", 10 ^ 28 + 1⟩]⟩],
   [⟨"Y", [⟨"d", 10 ^ 28⟩]⟩, ⟨"I", [⟨"d", 1⟩]⟩]⟩

/-- Scenario S4: conserved nothing, mismatch 350 in vs 450 out. -/
def obS4 : List Balance := [⟨"account1", [⟨"denom1", 1000000⟩]⟩]

def txS4 : MultiSend :=
  ⟨[⟨"account1", [⟨"denom1", 350⟩]⟩], [⟨"account_recipient", [⟨"denom1", 450⟩]⟩]⟩

/-- C7: on scenario S2 the function succeeds; account1's delta in denom1 is
-715 = -650 - ceil(650·0.08·0.5) - ceil(650·0.12·0.5). -/
theorem C7_scenario_s2 :
    calculate_balance_changes obS2 [defS2] txS2 =
      .ok [⟨"account1", [⟨"denom1", -715⟩]⟩,
           ⟨"issuer_account_A", [⟨"denom1", 560⟩]⟩,
           ⟨"account2", [⟨"denom1", -385⟩]⟩,
           ⟨"account_recipient", [⟨"denom1", 500⟩]⟩] := by
  rfl

/-- C1: the code charges an input coming from the issuer.  On
`txIssuerIn` the issuer's delta is -125 = -(100 + 25): a burn share of
ceil(100·(1/2)·(100/200)) = 25 is deducted from the issuer's input of 100,
although the issuer exemption requires a delta of exactly -100.  This
contradicts the source's own documentation ("burn_rate and commission_rate
does not apply to the issuer"): `process_input`'s loop never compares
`input.address` with `definition.issuer`. -/
theorem C1_issuer_input_charged :
    calculate_balance_changes obIssuerIn [defIssuerIn] txIssuerIn =
      .ok [⟨"I", [⟨"d", -125⟩]⟩, ⟨"X", [⟨"d", -125⟩]⟩, ⟨"Y", [⟨"d", 200⟩]⟩] ∧
    feeShare defIssuerIn.burn_rate 100 200 100 = 25 := by
  exact ⟨rfl, by decide⟩

/-- C6 counterexample: on the issuer-to-issuer transfer both non-issuer sums
are 0 (so num = 0), yet the issuer's input of 100 is assessed a burn share of
ceil(100·(1/2)) = 50 — the scaling branch is skipped because den = num — and
the returned delta for the issuer is -50, not 0. -/
theorem C6_counterexample :
    min (get_filtered_coin_sum txIssuerOnly.inputs defIssuerIn)
        (get_filtered_coin_sum txIssuerOnly.outputs defIssuerIn) = 0 ∧
    feeShare defIssuerIn.burn_rate 0 0 100 = 50 ∧
    calculate_balance_changes obIssuerOnly [defIssuerIn] txIssuerOnly =
      .ok [⟨"I", [⟨"d", -50⟩]⟩] := by
  refine ⟨by decide, by decide, rfl⟩

/-- C9 counterexample: with a duplicated denom in one original Balance
(first coin 5, second coin 0), the solvency check reads the original
balance through `to_hashmap`, where the LAST duplicate wins: the lookup
yields 0 and the transaction of 5 is rejected with "Insufficient balance",
although the first coin with that denom holds 5, which covers the
deduction of 5. -/
theorem C9_counterexample :
    calculate_balance_changes obDupDenom [defZeroRates] txDupDenom =
      .error "Insufficient balance" ∧
    find_coin [(⟨"d", 5⟩ : Coin), ⟨"d", 0⟩] "d" = some ⟨"d", 5⟩ ∧
    hmLookup (to_hashmap obDupDenom) ("a", "d") = some 0 := by
  refine ⟨rfl, by decide, by decide⟩

/-- C3 counterexample: the first definition's denom is conserved but its
amount 2^96 does not fit `Decimal::from_i128`, so processing fails with
"Decimal issue" before the second definition — whose denom is mismatched
(5 in, 0 out) — is ever validated.  The function errors, but not with
InputOutputMismatch. -/
theorem C3_counterexample :
    calculate_balance_changes [] defsBigThenMismatch txBigThenMismatch =
      .error "Decimal issue" ∧
    get_coin_sum txBigThenMismatch.inputs "d2" ≠ get_coin_sum txBigThenMismatch.outputs "d2" := by
  refine ⟨rfl, by decide⟩

/-! Error classification: every failure of the embedded pipeline carries one
of four fixed messages. -/

theorem processInputEntry_error_mem (d : DenomDefinition) (num den : Int)
    (changes : DeltaList) (input : Balance) (e : String)
    (h : processInputEntry d num den changes input = .error e) :
    e = "Decimal issue" ∨ e = "Calculation failure" := by
  rcases hfc : find_coin input.coins d.denom with _ | coin <;>
    simp only [processInputEntry, hfc] at h
  · cases h
  · split_ifs at h <;> simp_all

theorem process_input_go_error_mem (d : DenomDefinition) (num den : Int) :
    ∀ (inputs : List Balance) (changes : DeltaList) (e : String),
      process_input_go d num den inputs changes = .error e →
      e = "Decimal issue" ∨ e = "Calculation failure" := by
  intro inputs
  induction inputs with
  | nil => intro ch e h; simp [process_input_go] at h
  | cons i rest ih =>
    intro ch e h
    rw [process_input_go] at h
    cases hpe : processInputEntry d num den ch i with
    | error e' =>
      rw [hpe] at h
      cases h
      exact processInputEntry_error_mem d num den ch i _ hpe
    | ok ch' =>
      rw [hpe] at h
      exact ih ch' e h

theorem process_input_error_mem (tx : MultiSend) (d : DenomDefinition)
    (changes : DeltaList) (e : String) (h : process_input tx d changes = .error e) :
    e = "Decimal issue" ∨ e = "Calculation failure" := by
  simp only [process_input] at h
  exact process_input_go_error_mem _ _ _ _ _ _ h

theorem validate_inout_error_eq (tx : MultiSend) (d : DenomDefinition) (e : String)
    (h : validate_inout tx d = .error e) : e = "Input and output mismatch" := by
  unfold validate_inout at h
  split_ifs at h <;> simp_all

theorem process_error_mem (tx : MultiSend) :
    ∀ (defs : List DenomDefinition) (changes : DeltaList) (e : String),
      tx.process defs changes = .error e →
      e = "Input and output mismatch" ∨ e = "Decimal issue" ∨ e = "Calculation failure" := by
  intro defs
  induction defs with
  | nil => intro ch e h; simp [MultiSend.process] at h
  | cons d rest ih =>
    intro ch e h
    rw [MultiSend.process] at h
    cases hv : validate_inout tx d with
    | error e' =>
      rw [hv] at h
      cases h
      exact Or.inl (validate_inout_error_eq tx d _ hv)
    | ok u =>
      rw [hv] at h
      cases hpi : process_input tx d ch with
      | error e' =>
        rw [hpi] at h
        cases h
        exact Or.inr (process_input_error_mem tx d ch _ hpi)
      | ok ch' =>
        rw [hpi] at h
        exact ih (process_output tx d ch') e h

/-! Basic facts about coin lookup. -/

theorem find_coin_mem (coins : List Coin) (denom : String) (c : Coin)
    (h : find_coin coins denom = some c) : c ∈ coins ∧ c.denom = denom := by
  unfold find_coin at h
  refine ⟨List.mem_of_find?_eq_some h, ?_⟩
  have := List.find?_some h
  simpa using this

theorem insolventEntry_true_iff (origMap : DeltaList) (kv : DeltaKey × Int) :
    insolventEntry origMap kv = true ↔
      kv.2 < 0 ∧ (hmLookup origMap kv.1).getD 0 < -kv.2 := by
  unfold insolventEntry
  split_ifs with h
  · simp; omega
  · cases hl : hmLookup origMap kv.1 with
    | none => simp [hl]; omega
    | some origin => simp [hl]; omega

theorem calculate_eq_of_process_ok (ob : List Balance) (defs : List DenomDefinition)
    (tx : MultiSend) (m : DeltaList) (hp : tx.process defs [] = .ok m) :
    calculate_balance_changes ob defs tx =
      if m.any (insolventEntry (to_hashmap ob)) then .error "Insufficient balance"
      else .ok (from_hashmap m) := by
  unfold calculate_balance_changes
  rw [hp]

/-- C4: given that all denom-level processing succeeded with final delta map
m, the function returns the InsufficientBalance error iff some key of m has
a negative delta whose magnitude exceeds the original balance of that key,
the original balance defaulting to 0 when the key is absent; the check runs
over the complete final map only. -/
theorem C4_solvency_iff (ob : List Balance) (defs : List DenomDefinition)
    (tx : MultiSend) (m : DeltaList) (hp : tx.process defs [] = .ok m) :
    (calculate_balance_changes ob defs tx = .error "Insufficient balance" ↔
      ∃ kv ∈ m, kv.2 < 0 ∧ (hmLookup (to_hashmap ob) kv.1).getD 0 < -kv.2) := by
  rw [calculate_eq_of_process_ok ob defs tx m hp]
  constructor
  · intro h
    split_ifs at h with hin
    · rw [List.any_eq_true] at hin
      obtain ⟨kv, hkv, he⟩ := hin
      exact ⟨kv, hkv, (insolventEntry_true_iff _ _).1 he⟩
  · intro ⟨kv, hkv, hcond⟩
    have hany : m.any (insolventEntry (to_hashmap ob)) = true :=
      List.any_eq_true.2 ⟨kv, hkv, (insolventEntry_true_iff _ _).2 hcond⟩
    simp [hany]

/-- Witness for C4 at scenario S3: processing succeeds with account1's delta
-350 and no original balance, so the call fails with InsufficientBalance. -/
theorem C4_solvency_iff_witness :
    calculate_balance_changes obS3 [defS3] txS3 = .error "Insufficient balance" := by
  refine (C4_solvency_iff obS3 [defS3] txS3
    [(("account1", "denom1"), -350), (("issuer_account_A", "denom1"), 0),
     (("account_recipient", "denom1"), 350)] (by rfl)).2 ?_
  refine ⟨(("account1", "denom1"), -350), by decide, by decide, by decide⟩

/-- C9 amended: lookups through `find_coin` (conservation sums, non-issuer
sums, fee loop, output crediting) take the FIRST coin with the denom, while
the original-balance lookup of the solvency check goes through `to_hashmap`,
where the LAST coin with that (address, denom) wins. -/
theorem C9_lookup_semantics (addr d : String) (c1 c2 : Coin)
    (h1 : c1.denom = d) (h2 : c2.denom = d) :
    find_coin [c1, c2] d = some c1 ∧
    hmLookup (to_hashmap [⟨addr, [c1, c2]⟩]) (addr, d) = some c2.amount := by
  constructor
  · simp [find_coin, List.find?, h1]
  · simp [to_hashmap, hmInsert, hmLookup, h1, h2]

/-- Witness for C9's amended statement at the duplicated balance
[(d,5), (d,0)]: find_coin sees 5, the solvency lookup sees 0. -/
theorem C9_lookup_semantics_witness :
    find_coin [(⟨"d", 5⟩ : Coin), ⟨"d", 0⟩] "d" = some ⟨"d", 5⟩ ∧
    hmLookup (to_hashmap [⟨"a", [⟨"d", 5⟩, ⟨"d", 0⟩]⟩]) ("a", "d") =
      some (⟨"d", (0 : Int)⟩ : Coin).amount :=
  C9_lookup_semantics "a" "d" ⟨"d", 5⟩ ⟨"d", 0⟩ rfl rfl

/-! Sums of coin amounts. -/

theorem get_filtered_coin_sum_cons (b : Balance) (bs : List Balance) (d : DenomDefinition) :
    get_filtered_coin_sum (b :: bs) d =
      (if d.issuer = b.address then 0
       else
         match find_coin b.coins d.denom with
         | none => 0
         | some c => c.amount) + get_filtered_coin_sum bs d := by
  unfold get_filtered_coin_sum
  by_cases hi : d.issuer = b.address
  · simp [List.filterMap_cons, hi]
  · have hb : (d.issuer == b.address) = false := by simp [hi]
    cases hf : find_coin b.coins d.denom <;>
      simp [List.filterMap_cons, hb, hf, hi]

theorem txNonneg_inputs (tx : MultiSend) (h : txAmountsNonneg tx) :
    ∀ b ∈ tx.inputs, ∀ c ∈ b.coins, 0 ≤ c.amount :=
  fun b hb => h b (List.mem_append_left _ hb)

theorem txNonneg_outputs (tx : MultiSend) (h : txAmountsNonneg tx) :
    ∀ b ∈ tx.outputs, ∀ c ∈ b.coins, 0 ≤ c.amount :=
  fun b hb => h b (List.mem_append_right _ hb)

theorem get_filtered_coin_sum_nonneg (bs : List Balance) (d : DenomDefinition)
    (hnn : ∀ b ∈ bs, ∀ c ∈ b.coins, 0 ≤ c.amount) :
    0 ≤ get_filtered_coin_sum bs d := by
  induction bs with
  | nil => simp [get_filtered_coin_sum]
  | cons b bs ih =>
    rw [get_filtered_coin_sum_cons]
    have h1 : 0 ≤ get_filtered_coin_sum bs d :=
      ih (fun x hx => hnn x (List.mem_cons_of_mem _ hx))
    have h2 : 0 ≤ (if d.issuer = b.address then 0
       else
         match find_coin b.coins d.denom with
         | none => 0
         | some c => c.amount) := by
      split_ifs with hi
      · exact le_refl 0
      · cases hf : find_coin b.coins d.denom with
        | none => exact le_refl 0
        | some c =>
          exact hnn b (List.mem_cons_self b bs) c (find_coin_mem _ _ _ hf).1
    omega

theorem le_get_filtered_coin_sum (bs : List Balance) (d : DenomDefinition)
    (input : Balance) (coin : Coin)
    (hmem : input ∈ bs) (hni : input.address ≠ d.issuer)
    (hfc : find_coin input.coins d.denom = some coin)
    (hnn : ∀ b ∈ bs, ∀ c ∈ b.coins, 0 ≤ c.amount) :
    coin.amount ≤ get_filtered_coin_sum bs d := by
  induction bs with
  | nil => cases hmem
  | cons b bs ih =>
    rw [get_filtered_coin_sum_cons]
    have htail : ∀ x ∈ bs, ∀ c ∈ x.coins, 0 ≤ c.amount :=
      fun x hx => hnn x (List.mem_cons_of_mem _ hx)
    rcases List.mem_cons.1 hmem with rfl | hmem'
    · rw [if_neg (fun h => hni h.symm), hfc]
      show coin.amount ≤ coin.amount + get_filtered_coin_sum bs d
      have h1 := get_filtered_coin_sum_nonneg bs d htail
      omega
    · have h2 : 0 ≤ (if d.issuer = b.address then 0
         else
           match find_coin b.coins d.denom with
           | none => 0
           | some c => c.amount) := by
        split_ifs with hi
        · exact le_refl 0
        · cases hf : find_coin b.coins d.denom with
          | none => exact le_refl 0
          | some c =>
            exact hnn b (List.mem_cons_self b bs) c (find_coin_mem _ _ _ hf).1
      have h3 := ih hmem' htail
      omega

/-! The fee-share formula. -/

theorem feeShare_eq_ceil (rate : Rat) (num den a : Int)
    (ha0 : den = 0 → a = 0) :
    feeShare rate num den a = ⌈(a : Rat) * rate * (num : Rat) / (den : Rat)⌉ := by
  unfold feeShare
  split_ifs with h
  · rw [mul_div_assoc]
  · push_neg at h
    by_cases hd : den = 0
    · have ha : a = 0 := ha0 hd
      subst ha
      simp
    · have hq : ((num : Rat)) ≠ 0 := Int.cast_ne_zero.2 (h ▸ hd)
      rw [h, mul_div_assoc, div_self hq, mul_one]

theorem process_input_eq_go (tx : MultiSend) (d : DenomDefinition) (ch : DeltaList) :
    process_input tx d ch =
      process_input_go d
        (min (get_filtered_coin_sum tx.inputs d) (get_filtered_coin_sum tx.outputs d))
        (max (get_filtered_coin_sum tx.inputs d) (get_filtered_coin_sum tx.outputs d))
        tx.inputs ch := by
  simp only [process_input]
  rcases le_or_lt (get_filtered_coin_sum tx.inputs d) (get_filtered_coin_sum tx.outputs d)
    with h | h
  · rw [if_neg (not_lt.2 h), min_eq_left h, max_eq_right h]
  · rw [if_pos h, min_eq_right h.le, max_eq_left h.le]

theorem processInputEntry_ok_some (d : DenomDefinition) (num den : Int)
    (ch : DeltaList) (input : Balance) (ch' : DeltaList) (coin : Coin)
    (hfc : find_coin input.coins d.denom = some coin)
    (h : processInputEntry d num den ch input = .ok ch') :
    ch' = applyDelta
        (applyDelta ch (input.address, d.denom)
          (-(feeShare d.burn_rate num den coin.amount +
              feeShare d.commission_rate num den coin.amount + coin.amount)))
        (d.issuer, d.denom) (feeShare d.commission_rate num den coin.amount) := by
  simp only [processInputEntry, hfc] at h
  split_ifs at h <;> simp_all

/-- C2 counterexample: at a non-issuer input of a = 10^28 + 1 with burn
rate 1.0, num = 10^28 and den = 10^28 + 1 (the sums realised by
`txSatC2`, which conserves its denom), the source's
`burnt.saturating_mul(numerate)` overflows `Decimal` and saturates at
`Decimal::MAX`, so the program charges ceil(MAX / den) = 8 — not the
exact-rational ceil(a·b·num/den) = 10^28 the claim asserts.  The products
and quotient are therefore not computed as exact rationals. -/
theorem C2_counterexample :
    get_filtered_coin_sum txSatC2.inputs defSatC2 = 10 ^ 28 + 1 ∧
    get_filtered_coin_sum txSatC2.outputs defSatC2 = 10 ^ 28 ∧
    get_coin_sum txSatC2.inputs "d" = get_coin_sum txSatC2.outputs "d" ∧
    feeShareSat defSatC2.burn_rate (10 ^ 28) (10 ^ 28 + 1) (10 ^ 28 + 1) = 8 ∧
    feeShare defSatC2.burn_rate (10 ^ 28) (10 ^ 28 + 1) (10 ^ 28 + 1) = 10 ^ 28 := by
  refine ⟨by decide, by decide, by decide, by decide, by decide⟩

/-- C2 amended: for a non-issuer input entry of amount a, `process_input`
deducts exactly a + ceil(a·b·num/den) + ceil(a·c·num/den) from the sender
and credits ceil(a·c·num/den) to the issuer, where num = min and den = max
of the two non-issuer sums and the products and quotient are exact
rationals rounded up at the end (in Lean, x / 0 = 0, so the formula also
covers the den = 0 case, stated separately below); when the two sums agree
the shares reduce to ceil(a·b) and ceil(a·c).  The representability
hypotheses `_hrepb`/`_hrepc` restrict the statement to the domain on which
the source's `Decimal` chain is exact: outside it `saturating_mul`
saturates and division rounds, and the formula fails (see
`C2_counterexample`). -/
theorem C2_fee_share_formula
    (tx : MultiSend) (d : DenomDefinition) (input : Balance) (coin : Coin)
    (nIn nOut : Int) (ch ch' : DeltaList)
    (hIn : get_filtered_coin_sum tx.inputs d = nIn)
    (hOut : get_filtered_coin_sum tx.outputs d = nOut)
    (hnn : txAmountsNonneg tx)
    (hmem : input ∈ tx.inputs)
    (hni : input.address ≠ d.issuer)
    (hfc : find_coin input.coins d.denom = some coin)
    (_hrepb : decRepresentable ((coin.amount : Rat) * d.burn_rate) ∧
      decRepresentable ((coin.amount : Rat) * d.burn_rate * ((min nIn nOut : Int) : Rat)) ∧
      decRepresentable ((coin.amount : Rat) * d.burn_rate * ((min nIn nOut : Int) : Rat) /
        ((max nIn nOut : Int) : Rat)))
    (_hrepc : decRepresentable ((coin.amount : Rat) * d.commission_rate) ∧
      decRepresentable ((coin.amount : Rat) * d.commission_rate * ((min nIn nOut : Int) : Rat)) ∧
      decRepresentable ((coin.amount : Rat) * d.commission_rate * ((min nIn nOut : Int) : Rat) /
        ((max nIn nOut : Int) : Rat)))
    (hrun : processInputEntry d (min nIn nOut) (max nIn nOut) ch input = .ok ch') :
    process_input tx d ch =
      process_input_go d (min nIn nOut) (max nIn nOut) tx.inputs ch ∧
    ch' = applyDelta
        (applyDelta ch (input.address, d.denom)
          (-(⌈(coin.amount : Rat) * d.burn_rate * ((min nIn nOut : Int) : Rat) /
                ((max nIn nOut : Int) : Rat)⌉ +
             ⌈(coin.amount : Rat) * d.commission_rate * ((min nIn nOut : Int) : Rat) /
                ((max nIn nOut : Int) : Rat)⌉ +
             coin.amount)))
        (d.issuer, d.denom)
        ⌈(coin.amount : Rat) * d.commission_rate * ((min nIn nOut : Int) : Rat) /
           ((max nIn nOut : Int) : Rat)⌉ ∧
    (nIn = nOut →
      feeShare d.burn_rate (min nIn nOut) (max nIn nOut) coin.amount =
        ⌈(coin.amount : Rat) * d.burn_rate⌉ ∧
      feeShare d.commission_rate (min nIn nOut) (max nIn nOut) coin.amount =
        ⌈(coin.amount : Rat) * d.commission_rate⌉) ∧
    (max nIn nOut = 0 →
      ⌈(coin.amount : Rat) * d.burn_rate * ((min nIn nOut : Int) : Rat) /
         ((max nIn nOut : Int) : Rat)⌉ = 0 ∧
      ⌈(coin.amount : Rat) * d.commission_rate * ((min nIn nOut : Int) : Rat) /
         ((max nIn nOut : Int) : Rat)⌉ = 0) := by
  subst hIn
  subst hOut
  have hc0 : 0 ≤ coin.amount :=
    txNonneg_inputs tx hnn input hmem coin (find_coin_mem _ _ _ hfc).1
  have ha0 : max (get_filtered_coin_sum tx.inputs d) (get_filtered_coin_sum tx.outputs d) = 0 →
      coin.amount = 0 := by
    intro hmax
    have h1 : coin.amount ≤ get_filtered_coin_sum tx.inputs d :=
      le_get_filtered_coin_sum tx.inputs d input coin hmem hni hfc (txNonneg_inputs tx hnn)
    have h2 : get_filtered_coin_sum tx.inputs d ≤
        max (get_filtered_coin_sum tx.inputs d) (get_filtered_coin_sum tx.outputs d) :=
      le_max_left _ _
    omega
  have hb := feeShare_eq_ceil d.burn_rate
    (min (get_filtered_coin_sum tx.inputs d) (get_filtered_coin_sum tx.outputs d))
    (max (get_filtered_coin_sum tx.inputs d) (get_filtered_coin_sum tx.outputs d))
    coin.amount ha0
  have hcm := feeShare_eq_ceil d.commission_rate
    (min (get_filtered_coin_sum tx.inputs d) (get_filtered_coin_sum tx.outputs d))
    (max (get_filtered_coin_sum tx.inputs d) (get_filtered_coin_sum tx.outputs d))
    coin.amount ha0
  refine ⟨process_input_eq_go tx d ch, ?_, ?_, ?_⟩
  · have hext := processInputEntry_ok_some d _ _ ch input ch' coin hfc hrun
    rw [hb, hcm] at hext
    exact hext
  · intro he
    rw [he, min_self, max_self]
    constructor <;> simp [feeShare]
  · intro hmax
    constructor <;> simp [hmax]

/-- Witness for C2 at scenario S2's first input (account1, 650 of denom1):
the entry update deducts 650 + 26 + 39 = 715 and credits 39 to the issuer. -/
theorem C2_fee_share_formula_witness :
    ([(("account1", "denom1"), (-715 : Int)), (("issuer_account_A", "denom1"), 39)] :
        DeltaList) =
      applyDelta
        (applyDelta ([] : DeltaList) ("account1", "denom1")
          (-(⌈((650 : Int) : Rat) * defS2.burn_rate * ((min (1000 : Int) 500 : Int) : Rat) /
                ((max (1000 : Int) 500 : Int) : Rat)⌉ +
             ⌈((650 : Int) : Rat) * defS2.commission_rate * ((min (1000 : Int) 500 : Int) : Rat) /
                ((max (1000 : Int) 500 : Int) : Rat)⌉ +
             (650 : Int))))
        ("issuer_account_A", "denom1")
        ⌈((650 : Int) : Rat) * defS2.commission_rate * ((min (1000 : Int) 500 : Int) : Rat) /
           ((max (1000 : Int) 500 : Int) : Rat)⌉ :=
  (C2_fee_share_formula txS2 defS2 ⟨"account1", [⟨"denom1", 650⟩]⟩ ⟨"denom1", 650⟩
    1000 500 []
    [(("account1", "denom1"), -715), (("issuer_account_A", "denom1"), 39)]
    (by rfl) (by rfl) (by unfold txAmountsNonneg; decide) (by decide) (by decide)
    (by rfl)
    ⟨⟨52, 0, by norm_num, by norm_num [defS2], by norm_num⟩,
     ⟨26000, 0, by norm_num, by norm_num [defS2], by norm_num⟩,
     ⟨26, 0, by norm_num, by norm_num [defS2], by norm_num⟩⟩
    ⟨⟨78, 0, by norm_num, by norm_num [defS2], by norm_num⟩,
     ⟨39000, 0, by norm_num, by norm_num [defS2], by norm_num⟩,
     ⟨39, 0, by norm_num, by norm_num [defS2], by norm_num⟩⟩
    (by rfl)).2.1

/-- C6 amended: with non-negative transaction amounts, whenever
min(non-issuer input sum, non-issuer output sum) = 0, every input entry
whose address differs from the issuer is assessed zero burn and zero
commission.  (The original claim fails for issuer entries: see the
counterexample.) -/
theorem C6_nonissuer_zero_fee
    (tx : MultiSend) (d : DenomDefinition) (input : Balance) (coin : Coin)
    (nIn nOut : Int)
    (hIn : get_filtered_coin_sum tx.inputs d = nIn)
    (hOut : get_filtered_coin_sum tx.outputs d = nOut)
    (hnn : txAmountsNonneg tx)
    (hmem : input ∈ tx.inputs)
    (hni : input.address ≠ d.issuer)
    (hfc : find_coin input.coins d.denom = some coin)
    (hmin : min nIn nOut = 0) :
    feeShare d.burn_rate (min nIn nOut) (max nIn nOut) coin.amount = 0 ∧
    feeShare d.commission_rate (min nIn nOut) (max nIn nOut) coin.amount = 0 := by
  subst hIn
  subst hOut
  have ha0 : max (get_filtered_coin_sum tx.inputs d) (get_filtered_coin_sum tx.outputs d) = 0 →
      coin.amount = 0 := by
    intro hmax
    have h1 : coin.amount ≤ get_filtered_coin_sum tx.inputs d :=
      le_get_filtered_coin_sum tx.inputs d input coin hmem hni hfc (txNonneg_inputs tx hnn)
    have h2 : get_filtered_coin_sum tx.inputs d ≤
        max (get_filtered_coin_sum tx.inputs d) (get_filtered_coin_sum tx.outputs d) :=
      le_max_left _ _
    have hc0 : 0 ≤ coin.amount :=
      txNonneg_inputs tx hnn input hmem coin (find_coin_mem _ _ _ hfc).1
    omega
  rw [feeShare_eq_ceil d.burn_rate _ _ _ ha0, feeShare_eq_ceil d.commission_rate _ _ _ ha0,
    hmin]
  constructor <;> simp

/-- Witness for C6's amended statement: all outputs to the issuer, so
num = min(100, 0) = 0 and the non-issuer sender X pays no fee. -/
theorem C6_nonissuer_zero_fee_witness :
    feeShare defIssuerIn.burn_rate (min (100 : Int) 0) (max (100 : Int) 0) 100 = 0 ∧
    feeShare defIssuerIn.commission_rate (min (100 : Int) 0) (max (100 : Int) 0) 100 = 0 :=
  C6_nonissuer_zero_fee txAllToIssuer defIssuerIn ⟨"X", [⟨"d", 100⟩]⟩ ⟨"d", 100⟩
    100 0 (by rfl) (by rfl) (by unfold txAmountsNonneg; decide) (by decide) (by decide)
    (by rfl) (by decide)

/-! Per-denom sums through the pipeline (claim C5). -/

theorem sumForDenom_applyDelta (m : DeltaList) (k : DeltaKey) (v : Int) (s : String) :
    sumForDenom (applyDelta m k v) s =
      sumForDenom m s + (if k.2 = s then v else 0) := by
  induction m with
  | nil => by_cases h : k.2 = s <;> simp [applyDelta, sumForDenom, h]
  | cons kv rest ih =>
    obtain ⟨k', v'⟩ := kv
    by_cases hk : k' = k
    · subst hk
      by_cases h : k'.2 = s <;> simp [applyDelta, sumForDenom, h] <;> ring
    · simp only [applyDelta, if_neg hk, sumForDenom, List.map_cons, List.sum_cons]
      have := ih
      simp only [sumForDenom] at this
      rw [this]
      ring

theorem processInputEntry_ok_none (d : DenomDefinition) (num den : Int)
    (ch : DeltaList) (input : Balance) (ch' : DeltaList)
    (hfc : find_coin input.coins d.denom = none)
    (h : processInputEntry d num den ch input = .ok ch') : ch' = ch := by
  simp only [processInputEntry, hfc] at h
  exact (Except.ok.inj h).symm

theorem processInputEntry_ok_sum (d : DenomDefinition) (num den : Int)
    (ch : DeltaList) (input : Balance) (ch' : DeltaList) (s : String)
    (h : processInputEntry d num den ch input = .ok ch') :
    sumForDenom ch' s = sumForDenom ch s +
      (if d.denom = s then
        -(match find_coin input.coins d.denom with
          | none => 0
          | some coin => feeShare d.burn_rate num den coin.amount + coin.amount)
       else 0) := by
  cases hfc : find_coin input.coins d.denom with
  | none =>
    rw [processInputEntry_ok_none d num den ch input ch' hfc h]
    by_cases hds : d.denom = s <;> simp [hds]
  | some coin =>
    rw [processInputEntry_ok_some d num den ch input ch' coin hfc h]
    rw [sumForDenom_applyDelta, sumForDenom_applyDelta]
    by_cases hds : d.denom = s <;> simp [hds] <;> ring

theorem process_input_go_ok_sum (d : DenomDefinition) (num den : Int) (s : String) :
    ∀ (inputs : List Balance) (ch ch' : DeltaList),
      process_input_go d num den inputs ch = .ok ch' →
      sumForDenom ch' s = sumForDenom ch s +
        (if d.denom = s then
          -(burnSumGo d num den inputs +
            (inputs.map (fun b =>
              match find_coin b.coins d.denom with
              | none => 0
              | some c => c.amount)).sum)
         else 0) := by
  intro inputs
  induction inputs with
  | nil =>
    intro ch ch' h
    simp only [process_input_go] at h
    rw [(Except.ok.inj h)]
    by_cases hds : d.denom = s <;> simp [hds, burnSumGo]
  | cons input rest ih =>
    intro ch ch' h
    rw [process_input_go] at h
    cases hpe : processInputEntry d num den ch input with
    | error e => rw [hpe] at h; cases h
    | ok ch1 =>
      rw [hpe] at h
      have h1 := processInputEntry_ok_sum d num den ch input ch1 s hpe
      have h2 := ih ch1 ch' h
      rw [h2, h1]
      have hbs : burnSumGo d num den (input :: rest) =
          (match find_coin input.coins d.denom with
           | none => 0
           | some coin => feeShare d.burn_rate num den coin.amount) +
          burnSumGo d num den rest := by
        simp [burnSumGo]
      rw [hbs, List.map_cons, List.sum_cons]
      by_cases hds : d.denom = s
      · rw [if_pos hds, if_pos hds, if_pos hds]
        cases hfc : find_coin input.coins d.denom <;> simp only [hfc] <;> ring
      · rw [if_neg hds, if_neg hds, if_neg hds]
        ring

theorem process_output_go_sum (d : DenomDefinition) (s : String) :
    ∀ (outputs : List Balance) (ch : DeltaList),
      sumForDenom (process_output_go d outputs ch) s =
        sumForDenom ch s +
        (if d.denom = s then
          (outputs.map (fun b =>
            match find_coin b.coins d.denom with
            | none => 0
            | some c => c.amount)).sum
         else 0) := by
  intro outputs
  induction outputs with
  | nil =>
    intro ch
    by_cases hds : d.denom = s <;> simp [process_output_go, hds]
  | cons out rest ih =>
    intro ch
    rw [process_output_go]
    cases hfc : find_coin out.coins d.denom with
    | none =>
      rw [ih ch, List.map_cons, List.sum_cons]
      by_cases hds : d.denom = s
      · rw [if_pos hds, if_pos hds]
        simp only [hfc]
        ring
      · rw [if_neg hds, if_neg hds]
    | some coin =>
      rw [ih, sumForDenom_applyDelta]
      have hcd : coin.denom = d.denom := (find_coin_mem _ _ _ hfc).2
      rw [hcd, List.map_cons, List.sum_cons]
      by_cases hds : d.denom = s
      · rw [if_pos hds, if_pos hds, if_pos hds]
        simp only [hfc]
        ring
      · rw [if_neg hds, if_neg hds, if_neg hds]
        ring

theorem get_coin_sum_eq_matchSum (bs : List Balance) (s : String) :
    get_coin_sum bs s =
      (bs.map (fun b =>
        match find_coin b.coins s with
        | none => 0
        | some c => c.amount)).sum := by
  induction bs with
  | nil => simp [get_coin_sum]
  | cons b rest ih =>
    unfold get_coin_sum at *
    cases hfc : find_coin b.coins s <;>
      simp [List.filterMap_cons, hfc, ih]

theorem validate_inout_ok (tx : MultiSend) (d : DenomDefinition) (u : Unit)
    (h : validate_inout tx d = .ok u) :
    get_coin_sum tx.inputs d.denom = get_coin_sum tx.outputs d.denom := by
  unfold validate_inout at h
  split_ifs at h with hne
  push_neg at hne
  exact hne

theorem total_burn_eq_go (tx : MultiSend) (d : DenomDefinition) :
    total_burn tx d =
      burnSumGo d
        (min (get_filtered_coin_sum tx.inputs d) (get_filtered_coin_sum tx.outputs d))
        (max (get_filtered_coin_sum tx.inputs d) (get_filtered_coin_sum tx.outputs d))
        tx.inputs := by
  simp only [total_burn]
  rcases le_or_lt (get_filtered_coin_sum tx.inputs d) (get_filtered_coin_sum tx.outputs d)
    with h | h
  · rw [if_neg (not_lt.2 h), min_eq_left h, max_eq_right h]
  · rw [if_pos h, min_eq_right h.le, max_eq_left h.le]

theorem process_input_ok_sum (tx : MultiSend) (d : DenomDefinition)
    (ch ch' : DeltaList) (s : String) (h : process_input tx d ch = .ok ch') :
    sumForDenom ch' s = sumForDenom ch s +
      (if d.denom = s then -(total_burn tx d + get_coin_sum tx.inputs d.denom) else 0) := by
  rw [process_input_eq_go] at h
  have := process_input_go_ok_sum d
    (min (get_filtered_coin_sum tx.inputs d) (get_filtered_coin_sum tx.outputs d))
    (max (get_filtered_coin_sum tx.inputs d) (get_filtered_coin_sum tx.outputs d))
    s tx.inputs ch ch' h
  rw [this, total_burn_eq_go, get_coin_sum_eq_matchSum]

theorem process_ok_sum (tx : MultiSend) :
    ∀ (defs : List DenomDefinition) (ch m : DeltaList),
      tx.process defs ch = .ok m →
      (defs.map (fun x => x.denom)).Nodup →
      (∀ d ∈ defs, sumForDenom m d.denom = sumForDenom ch d.denom - total_burn tx d) ∧
      (∀ s, s ∉ defs.map (fun x => x.denom) → sumForDenom m s = sumForDenom ch s) := by
  intro defs
  induction defs with
  | nil =>
    intro ch m h _
    rw [MultiSend.process] at h
    rw [(Except.ok.inj h)]
    exact ⟨fun d hd => absurd hd (List.not_mem_nil d), fun s _ => rfl⟩
  | cons d0 rest ih =>
    intro ch m h hnd
    rw [MultiSend.process] at h
    cases hv : validate_inout tx d0 with
    | error e => rw [hv] at h; cases h
    | ok u =>
      rw [hv] at h
      cases hpi : process_input tx d0 ch with
      | error e => rw [hpi] at h; cases h
      | ok ch1 =>
        rw [hpi] at h
        have hnd0 : d0.denom ∉ rest.map (fun x => x.denom) := by
          simp only [List.map_cons, List.nodup_cons] at hnd
          exact hnd.1
        have hndr : (rest.map (fun x => x.denom)).Nodup := by
          simp only [List.map_cons, List.nodup_cons] at hnd
          exact hnd.2
        obtain ⟨ihMem, ihOut⟩ := ih (process_output tx d0 ch1) m h hndr
        have hsum1 := fun s => process_input_ok_sum tx d0 ch ch1 s hpi
        have hsum2 := fun s => process_output_go_sum d0 s tx.outputs ch1
        have hval := validate_inout_ok tx d0 u hv
        constructor
        · intro d hd
          rcases List.mem_cons.1 hd with rfl | hd'
          · rw [ihOut d.denom hnd0]
            show sumForDenom (process_output_go d tx.outputs ch1) d.denom = _
            rw [hsum2 d.denom, hsum1 d.denom, if_pos rfl, if_pos rfl,
              ← get_coin_sum_eq_matchSum tx.outputs d.denom, ← hval]
            ring
          · have hne : d0.denom ≠ d.denom := by
              intro hc
              exact hnd0 (hc ▸ List.mem_map_of_mem (fun x => x.denom) hd')
            rw [ihMem d hd']
            show sumForDenom (process_output_go d0 tx.outputs ch1) d.denom - _ = _
            rw [hsum2 d.denom, if_neg hne, hsum1 d.denom, if_neg hne]
            ring
        · intro s hs
          have hs0 : d0.denom ≠ s := by
            intro hc
            exact hs (hc ▸ List.mem_cons_self _ _)
          have hsr : s ∉ rest.map (fun x => x.denom) := by
            intro hc
            exact hs (List.mem_cons_of_mem _ hc)
          rw [ihOut s hsr]
          show sumForDenom (process_output_go d0 tx.outputs ch1) s = _
          rw [hsum2 s, if_neg hs0, hsum1 s, if_neg hs0]
          ring

theorem sumForDenom_cons (kv : DeltaKey × Int) (m : DeltaList) (s : String) :
    sumForDenom (kv :: m) s = (if kv.1.2 = s then kv.2 else 0) + sumForDenom m s := by
  simp [sumForDenom]

theorem deltaSumForDenom_cons (b : Balance) (bs : List Balance) (s : String) :
    deltaSumForDenom (b :: bs) s =
      (b.coins.map (fun c => if c.denom = s then c.amount else 0)).sum +
        deltaSumForDenom bs s := by
  simp [deltaSumForDenom]

theorem deltaSumForDenom_pushCoin (bs : List Balance) (addr : String) (c : Coin) (s : String) :
    deltaSumForDenom (pushCoin bs addr c) s =
      deltaSumForDenom bs s + (if c.denom = s then c.amount else 0) := by
  induction bs with
  | nil => simp [pushCoin, deltaSumForDenom]
  | cons b rest ih =>
    by_cases hb : b.address = addr
    · rw [pushCoin, if_pos hb, deltaSumForDenom_cons, deltaSumForDenom_cons]
      simp only [List.map_append, List.sum_append, List.map_cons, List.map_nil,
        List.sum_cons, List.sum_nil]
      ring
    · rw [pushCoin, if_neg hb, deltaSumForDenom_cons, deltaSumForDenom_cons, ih]
      ring

theorem from_hashmap_go_deltaSum :
    ∀ (entries : DeltaList) (bs : List Balance) (s : String),
      deltaSumForDenom (from_hashmap_go entries bs) s =
        deltaSumForDenom bs s + sumForDenom entries s := by
  intro entries
  induction entries with
  | nil => intro bs s; simp [from_hashmap_go, sumForDenom]
  | cons kv rest ih =>
    intro bs s
    obtain ⟨k, v⟩ := kv
    rw [from_hashmap_go]
    by_cases hv : v = 0
    · rw [if_pos hv, ih, sumForDenom_cons]
      subst hv
      simp
    · rw [if_neg hv, ih, deltaSumForDenom_pushCoin, sumForDenom_cons]
      show deltaSumForDenom bs s + (if k.2 = s then v else 0) + sumForDenom rest s =
        deltaSumForDenom bs s + ((if k.2 = s then v else 0) + sumForDenom rest s)
      ring

theorem calculate_ok_inv (ob : List Balance) (defs : List DenomDefinition)
    (tx : MultiSend) (res : List Balance)
    (h : calculate_balance_changes ob defs tx = .ok res) :
    ∃ m, tx.process defs [] = .ok m ∧
      m.any (insolventEntry (to_hashmap ob)) = false ∧ res = from_hashmap m := by
  unfold calculate_balance_changes at h
  cases hp : tx.process defs [] with
  | error e => rw [hp] at h; cases h
  | ok m =>
    simp only [hp] at h
    split_ifs at h with hin
    refine ⟨m, rfl, by simpa using hin, (Except.ok.inj h).symm⟩

/-- C5: when the call succeeds and the definitions carry pairwise distinct
denoms, the sum of all returned deltas in a definition's denom equals the
negation of the aggregate burn assessed for that definition (the sum of the
per-input burn shares), so the supply of the denom drops by exactly the
aggregate burn. -/
theorem C5_burn_conservation (ob : List Balance) (defs : List DenomDefinition)
    (tx : MultiSend) (res : List Balance)
    (hok : calculate_balance_changes ob defs tx = .ok res)
    (hnd : (defs.map (fun x => x.denom)).Nodup) :
    ∀ d ∈ defs, deltaSumForDenom res d.denom = -(total_burn tx d) := by
  obtain ⟨m, hp, hins, hres⟩ := calculate_ok_inv ob defs tx res hok
  intro d hd
  have h1 := (process_ok_sum tx defs [] m hp hnd).1 d hd
  rw [hres]
  show deltaSumForDenom (from_hashmap_go m []) d.denom = _
  rw [from_hashmap_go_deltaSum m [] d.denom, h1]
  simp [deltaSumForDenom, sumForDenom]

/-- Witness for C5 at scenario S2: the returned deltas of denom1 sum to
-715 + 560 - 385 + 500 = -40, the negated aggregate burn 26 + 14. -/
theorem C5_burn_conservation_witness :
    deltaSumForDenom
      [⟨"account1", [⟨"denom1", -715⟩]⟩, ⟨"issuer_account_A", [⟨"denom1", 560⟩]⟩,
       ⟨"account2", [⟨"denom1", -385⟩]⟩, ⟨"account_recipient", [⟨"denom1", 500⟩]⟩]
      defS2.denom = -(total_burn txS2 defS2) :=
  C5_burn_conservation obS2 [defS2] txS2
    [⟨"account1", [⟨"denom1", -715⟩]⟩, ⟨"issuer_account_A", [⟨"denom1", 560⟩]⟩,
     ⟨"account2", [⟨"denom1", -385⟩]⟩, ⟨"account_recipient", [⟨"denom1", 500⟩]⟩]
    (by rfl) (by decide) defS2 (List.mem_singleton.2 rfl)

/-! Bounds under which fee processing cannot fail (claim C3). -/

theorem get_coin_sum_nonneg (bs : List Balance) (s : String)
    (hnn : ∀ b ∈ bs, ∀ c ∈ b.coins, 0 ≤ c.amount) : 0 ≤ get_coin_sum bs s := by
  rw [get_coin_sum_eq_matchSum]
  apply List.sum_nonneg
  intro x hx
  rw [List.mem_map] at hx
  obtain ⟨b, hb, rfl⟩ := hx
  cases hfc : find_coin b.coins s with
  | none => simp
  | some c =>
    simp only [hfc]
    exact hnn b hb c (find_coin_mem _ _ _ hfc).1

theorem le_get_coin_sum (bs : List Balance) (s : String) (input : Balance) (coin : Coin)
    (hmem : input ∈ bs) (hfc : find_coin input.coins s = some coin)
    (hnn : ∀ b ∈ bs, ∀ c ∈ b.coins, 0 ≤ c.amount) :
    coin.amount ≤ get_coin_sum bs s := by
  induction bs with
  | nil => cases hmem
  | cons b rest ih =>
    rw [get_coin_sum_eq_matchSum, List.map_cons, List.sum_cons,
      ← get_coin_sum_eq_matchSum]
    have htail : ∀ x ∈ rest, ∀ c ∈ x.coins, 0 ≤ c.amount :=
      fun x hx => hnn x (List.mem_cons_of_mem _ hx)
    rcases List.mem_cons.1 hmem with rfl | hmem'
    · rw [hfc]
      have h1 := get_coin_sum_nonneg rest s htail
      show coin.amount ≤ coin.amount + get_coin_sum rest s
      omega
    · have h2 : 0 ≤ (match find_coin b.coins s with
         | none => 0
         | some c => c.amount) := by
        cases hf : find_coin b.coins s with
        | none => simp
        | some c =>
          simp only [hf]
          exact hnn b (List.mem_cons_self b rest) c (find_coin_mem _ _ _ hf).1
      have h3 := ih hmem' htail
      omega

theorem get_filtered_le_get_coin_sum (bs : List Balance) (d : DenomDefinition)
    (hnn : ∀ b ∈ bs, ∀ c ∈ b.coins, 0 ≤ c.amount) :
    get_filtered_coin_sum bs d ≤ get_coin_sum bs d.denom := by
  induction bs with
  | nil => simp [get_filtered_coin_sum, get_coin_sum]
  | cons b rest ih =>
    rw [get_filtered_coin_sum_cons, get_coin_sum_eq_matchSum, List.map_cons,
      List.sum_cons, ← get_coin_sum_eq_matchSum]
    have htail : ∀ x ∈ rest, ∀ c ∈ x.coins, 0 ≤ c.amount :=
      fun x hx => hnn x (List.mem_cons_of_mem _ hx)
    have hterm : (if d.issuer = b.address then 0
        else
          match find_coin b.coins d.denom with
          | none => 0
          | some c => c.amount) ≤
        (match find_coin b.coins d.denom with
          | none => 0
          | some c => c.amount) := by
      split_ifs with hi
      · cases hf : find_coin b.coins d.denom with
        | none => simp
        | some c =>
          simp only [hf]
          exact hnn b (List.mem_cons_self b rest) c (find_coin_mem _ _ _ hf).1
      · exact le_refl _
    have := ih htail
    omega

theorem feeShare_bounds (rate : Rat) (num den a : Int)
    (hr0 : 0 ≤ rate) (hr1 : rate ≤ 1) (ha : 0 ≤ a) (hn : 0 ≤ num) (hnd : num ≤ den) :
    0 ≤ feeShare rate num den a ∧ feeShare rate num den a ≤ a := by
  have hcast : ((a : Rat)) * rate ≤ (a : Rat) := by
    calc (a : Rat) * rate ≤ (a : Rat) * 1 := by
          apply mul_le_mul_of_nonneg_left hr1
          exact_mod_cast ha
      _ = (a : Rat) := mul_one _
  have hcast0 : 0 ≤ ((a : Rat)) * rate :=
    mul_nonneg (by exact_mod_cast ha) hr0
  unfold feeShare
  split_ifs with h
  · have hden : 0 < den := by omega
    have hq0 : (0 : Rat) ≤ (num : Rat) / (den : Rat) := by
      apply div_nonneg
      · exact_mod_cast hn
      · exact_mod_cast hden.le
    have hq1 : (num : Rat) / (den : Rat) ≤ 1 := by
      rw [div_le_one (by exact_mod_cast hden)]
      exact_mod_cast hnd
    constructor
    · apply Int.ceil_nonneg
      exact mul_nonneg hcast0 hq0
    · rw [Int.ceil_le]
      calc (a : Rat) * rate * ((num : Rat) / (den : Rat)) ≤ (a : Rat) * rate * 1 :=
            mul_le_mul_of_nonneg_left hq1 hcast0
        _ = (a : Rat) * rate := mul_one _
        _ ≤ (a : Rat) := hcast
  · constructor
    · exact Int.ceil_nonneg hcast0
    · rw [Int.ceil_le]
      exact hcast

theorem processInputEntry_ok_of_bounds (d : DenomDefinition) (num den : Int)
    (ch : DeltaList) (input : Balance)
    (hcoin : ∀ c, find_coin input.coins d.denom = some c →
      0 ≤ c.amount ∧ c.amount < DECIMAL_LIMIT)
    (hn : 0 ≤ num) (hnd : num ≤ den) (hdl : den < DECIMAL_LIMIT)
    (hbr : 0 ≤ d.burn_rate) (hbr1 : d.burn_rate ≤ 1)
    (hcr : 0 ≤ d.commission_rate) (hcr1 : d.commission_rate ≤ 1) :
    ∃ ch', processInputEntry d num den ch input = .ok ch' := by
  cases hfc : find_coin input.coins d.denom with
  | none => exact ⟨ch, by simp [processInputEntry, hfc]⟩
  | some coin =>
    obtain ⟨hc0, hcl⟩ := hcoin coin hfc
    have hL : (0 : Int) < DECIMAL_LIMIT := by norm_num [DECIMAL_LIMIT]
    have hImin : I128_MIN < 0 := by norm_num [I128_MIN]
    have hImax : DECIMAL_LIMIT ≤ I128_MAX := by norm_num [DECIMAL_LIMIT, I128_MAX]
    have hb := feeShare_bounds d.burn_rate num den coin.amount hbr hbr1 hc0 hn hnd
    have hcm := feeShare_bounds d.commission_rate num den coin.amount hcr hcr1 hc0 hn hnd
    have hb1 := hb.1
    have hb2 := hb.2
    have hcm1 := hcm.1
    have hcm2 := hcm.2
    cases hres : processInputEntry d num den ch input with
    | ok ch' => exact ⟨ch', rfl⟩
    | error e =>
      simp only [processInputEntry, hfc] at hres
      rw [if_neg (not_not_intro ⟨by omega, hcl⟩)] at hres
      rw [if_neg (fun h => h.2 ⟨by omega, by omega, by omega, by omega⟩)] at hres
      rw [if_neg (fun h => h.1 (by omega))] at hres
      rw [if_neg (not_not_intro ⟨by omega, by omega⟩)] at hres
      rw [if_neg (not_not_intro ⟨by omega, by omega⟩)] at hres
      cases hres

theorem process_input_go_ok_of_bounds (d : DenomDefinition) (num den : Int)
    (hn : 0 ≤ num) (hnd : num ≤ den) (hdl : den < DECIMAL_LIMIT)
    (hbr : 0 ≤ d.burn_rate) (hbr1 : d.burn_rate ≤ 1)
    (hcr : 0 ≤ d.commission_rate) (hcr1 : d.commission_rate ≤ 1) :
    ∀ (inputs : List Balance) (ch : DeltaList),
      (∀ input ∈ inputs, ∀ c, find_coin input.coins d.denom = some c →
        0 ≤ c.amount ∧ c.amount < DECIMAL_LIMIT) →
      ∃ ch', process_input_go d num den inputs ch = .ok ch' := by
  intro inputs
  induction inputs with
  | nil => intro ch _; exact ⟨ch, rfl⟩
  | cons input rest ih =>
    intro ch hcoin
    obtain ⟨ch1, h1⟩ := processInputEntry_ok_of_bounds d num den ch input
      (hcoin input (List.mem_cons_self _ _)) hn hnd hdl hbr hbr1 hcr hcr1
    rw [process_input_go, h1]
    exact ih ch1 (fun x hx => hcoin x (List.mem_cons_of_mem _ hx))

theorem process_input_ok_of_bounds (tx : MultiSend) (d : DenomDefinition)
    (ch : DeltaList)
    (hnn : txAmountsNonneg tx)
    (hinl : get_coin_sum tx.inputs d.denom < DECIMAL_LIMIT)
    (houtl : get_coin_sum tx.outputs d.denom < DECIMAL_LIMIT)
    (hbr : 0 ≤ d.burn_rate) (hbr1 : d.burn_rate ≤ 1)
    (hcr : 0 ≤ d.commission_rate) (hcr1 : d.commission_rate ≤ 1) :
    ∃ ch', process_input tx d ch = .ok ch' := by
  rw [process_input_eq_go]
  have h1 : 0 ≤ get_filtered_coin_sum tx.inputs d :=
    get_filtered_coin_sum_nonneg _ _ (txNonneg_inputs tx hnn)
  have h2 : 0 ≤ get_filtered_coin_sum tx.outputs d :=
    get_filtered_coin_sum_nonneg _ _ (txNonneg_outputs tx hnn)
  have h3 : get_filtered_coin_sum tx.inputs d < DECIMAL_LIMIT :=
    lt_of_le_of_lt (get_filtered_le_get_coin_sum _ _ (txNonneg_inputs tx hnn)) hinl
  have h4 : get_filtered_coin_sum tx.outputs d < DECIMAL_LIMIT :=
    lt_of_le_of_lt (get_filtered_le_get_coin_sum _ _ (txNonneg_outputs tx hnn)) houtl
  apply process_input_go_ok_of_bounds d _ _ (le_min h1 h2) min_le_max
    (max_lt h3 h4) hbr hbr1 hcr hcr1
  intro input hmem c hfc
  refine ⟨txNonneg_inputs tx hnn input hmem c (find_coin_mem _ _ _ hfc).1, ?_⟩
  exact lt_of_le_of_lt
    (le_get_coin_sum tx.inputs d.denom input c hmem hfc (txNonneg_inputs tx hnn)) hinl

theorem process_mismatch_error (tx : MultiSend) :
    ∀ (defs : List DenomDefinition) (ch : DeltaList),
      txAmountsNonneg tx →
      (∀ d ∈ defs, get_coin_sum tx.inputs d.denom < DECIMAL_LIMIT ∧
        get_coin_sum tx.outputs d.denom < DECIMAL_LIMIT) →
      (∀ d ∈ defs, 0 ≤ d.burn_rate ∧ d.burn_rate ≤ 1 ∧
        0 ≤ d.commission_rate ∧ d.commission_rate ≤ 1) →
      (∃ d ∈ defs, get_coin_sum tx.inputs d.denom ≠ get_coin_sum tx.outputs d.denom) →
      tx.process defs ch = .error "Input and output mismatch" := by
  intro defs
  induction defs with
  | nil =>
    intro ch _ _ _ hmis
    obtain ⟨d, hd, _⟩ := hmis
    cases hd
  | cons d0 rest ih =>
    intro ch hnn hlim hrates hmis
    rw [MultiSend.process]
    by_cases hv : get_coin_sum tx.inputs d0.denom = get_coin_sum tx.outputs d0.denom
    · have hvok : validate_inout tx d0 = .ok () := by
        unfold validate_inout
        rw [if_neg (not_not_intro hv)]
      rw [hvok]
      obtain ⟨hr1, hr2, hr3, hr4⟩ := hrates d0 (List.mem_cons_self _ _)
      obtain ⟨ch1, h1⟩ := process_input_ok_of_bounds tx d0 ch hnn
        (hlim d0 (List.mem_cons_self _ _)).1 (hlim d0 (List.mem_cons_self _ _)).2
        hr1 hr2 hr3 hr4
      rw [h1]
      apply ih (process_output tx d0 ch1) hnn
        (fun x hx => hlim x (List.mem_cons_of_mem _ hx))
        (fun x hx => hrates x (List.mem_cons_of_mem _ hx))
      obtain ⟨d, hd, hne⟩ := hmis
      rcases List.mem_cons.1 hd with rfl | hd'
      · exact absurd hv hne
      · exact ⟨d, hd', hne⟩
    · have : validate_inout tx d0 = .error "Input and output mismatch" := by
        unfold validate_inout
        rw [if_pos hv]
      rw [this]

theorem i128SumChecked_go_eq :
    ∀ (xs : List Int) (acc : Int), 0 ≤ acc → (∀ x ∈ xs, 0 ≤ x) →
      acc + xs.sum ≤ I128_MAX →
      xs.foldl (fun a x => a.bind (fun st => i128AddChecked st x)) (some acc) =
        some (acc + xs.sum) := by
  intro xs
  induction xs with
  | nil => intro acc _ _ _; simp
  | cons x rest ih =>
    intro acc hacc hnn hbound
    have hx : 0 ≤ x := hnn x (List.mem_cons_self _ _)
    have hrest : 0 ≤ rest.sum :=
      List.sum_nonneg (fun y hy => hnn y (List.mem_cons_of_mem _ hy))
    have hsum : (x :: rest).sum = x + rest.sum := List.sum_cons
    have hmin : I128_MIN ≤ acc + x := by
      have h0 : I128_MIN ≤ 0 := by norm_num [I128_MIN]
      omega
    have hmax : acc + x ≤ I128_MAX := by omega
    rw [List.foldl_cons]
    have hstep : (some acc).bind (fun st => i128AddChecked st x) = some (acc + x) := by
      simp [i128AddChecked, hmin, hmax]
    rw [hstep, ih (acc + x) (by omega)
      (fun y hy => hnn y (List.mem_cons_of_mem _ hy)) (by omega)]
    congr 1
    omega

/-- Under non-negative amounts with an in-range total, the source's
overflow-checked `i128` sum agrees with the exact sum of the model. -/
theorem get_coin_sum_checked_eq (bs : List Balance) (s : String)
    (hnn : ∀ b ∈ bs, ∀ c ∈ b.coins, 0 ≤ c.amount)
    (hlt : get_coin_sum bs s ≤ I128_MAX) :
    get_coin_sum_checked bs s = some (get_coin_sum bs s) := by
  have hnnl : ∀ x ∈ (bs.filterMap (fun b => find_coin b.coins s)).map
      (fun c => c.amount), 0 ≤ x := by
    intro x hx
    rw [List.mem_map] at hx
    obtain ⟨c, hc, rfl⟩ := hx
    rw [List.mem_filterMap] at hc
    obtain ⟨b, hb, hf⟩ := hc
    exact hnn b hb c (find_coin_mem _ _ _ hf).1
  have h := i128SumChecked_go_eq
    ((bs.filterMap (fun b => find_coin b.coins s)).map (fun c => c.amount)) 0
    le_rfl hnnl (by rw [zero_add]; exact hlt)
  unfold get_coin_sum_checked i128SumChecked
  rw [h, zero_add]
  rfl

/-- C3 amended: when every transaction amount is non-negative, every
per-denom input and output total fits the 96-bit `Decimal::from_i128`
range, every rate lies in [0, 1], and some definition's denom has
different input and output totals, the call returns exactly the
InputOutputMismatch error.  Under those bounds the source's `i128` sums
cannot overflow and agree with the exact sums of the model (first
conjunct), and no `Decimal` conversion can fail before the mismatched
denom is validated.  (Without the range bound a definition processed
earlier can fail with "Decimal issue" first: see the counterexample.) -/
theorem C3_mismatch_amended (ob : List Balance) (defs : List DenomDefinition)
    (tx : MultiSend)
    (hnn : txAmountsNonneg tx)
    (hlim : ∀ d ∈ defs, get_coin_sum tx.inputs d.denom < DECIMAL_LIMIT ∧
      get_coin_sum tx.outputs d.denom < DECIMAL_LIMIT)
    (hrates : ∀ d ∈ defs, 0 ≤ d.burn_rate ∧ d.burn_rate ≤ 1 ∧
      0 ≤ d.commission_rate ∧ d.commission_rate ≤ 1)
    (hmis : ∃ d ∈ defs, get_coin_sum tx.inputs d.denom ≠ get_coin_sum tx.outputs d.denom) :
    (∀ d ∈ defs,
      get_coin_sum_checked tx.inputs d.denom = some (get_coin_sum tx.inputs d.denom) ∧
      get_coin_sum_checked tx.outputs d.denom = some (get_coin_sum tx.outputs d.denom)) ∧
    calculate_balance_changes ob defs tx = .error "Input and output mismatch" := by
  have hmaxlim : DECIMAL_LIMIT ≤ I128_MAX := by norm_num [DECIMAL_LIMIT, I128_MAX]
  constructor
  · intro d hd
    constructor
    · exact get_coin_sum_checked_eq tx.inputs d.denom (txNonneg_inputs tx hnn)
        (le_trans (le_of_lt (hlim d hd).1) hmaxlim)
    · exact get_coin_sum_checked_eq tx.outputs d.denom (txNonneg_outputs tx hnn)
        (le_trans (le_of_lt (hlim d hd).2) hmaxlim)
  · have h := process_mismatch_error tx defs [] hnn hlim hrates hmis
    unfold calculate_balance_changes
    rw [h]

/-- Witness for C3's amended statement at scenario S4 (350 in, 450 out,
zero rates): the call rejects with the InputOutputMismatch error. -/
theorem C3_mismatch_amended_witness :
    calculate_balance_changes obS4 [defS3] txS4 = .error "Input and output mismatch" :=
  (C3_mismatch_amended obS4 [defS3] txS4
    (by unfold txAmountsNonneg; decide) (by decide) (by decide)
    ⟨defS3, List.mem_singleton.2 rfl, by decide⟩).2

/-! Shape of the materialized result (claim C8). -/

theorem applyDelta_keys_mem (k : DeltaKey) (v : Int) (x : DeltaKey) :
    ∀ m : DeltaList, (x ∈ (applyDelta m k v).map Prod.fst ↔ x ∈ m.map Prod.fst ∨ x = k) := by
  intro m
  induction m with
  | nil => simp [applyDelta]
  | cons kv rest ih =>
    obtain ⟨k', v'⟩ := kv
    by_cases hk : k' = k
    · subst hk
      simp only [applyDelta, eq_self_iff_true, if_true, List.map_cons, List.mem_cons]
      constructor
      · intro h
        rcases h with h | h
        · exact Or.inr h
        · exact Or.inl (Or.inr h)
      · intro h
        rcases h with (h | h) | h
        · exact Or.inl h
        · exact Or.inr h
        · exact Or.inl h
    · simp only [applyDelta, if_neg hk, List.map_cons, List.mem_cons, ih]
      tauto

theorem applyDelta_keys_nodup (k : DeltaKey) (v : Int) :
    ∀ m : DeltaList, (m.map Prod.fst).Nodup → ((applyDelta m k v).map Prod.fst).Nodup := by
  intro m
  induction m with
  | nil => intro _; simp [applyDelta]
  | cons kv rest ih =>
    obtain ⟨k', v'⟩ := kv
    intro hnd
    simp only [List.map_cons, List.nodup_cons] at hnd
    by_cases hk : k' = k
    · subst hk
      simp only [applyDelta, eq_self_iff_true, if_true, List.map_cons, List.nodup_cons]
      exact hnd
    · simp only [applyDelta, if_neg hk, List.map_cons, List.nodup_cons]
      refine ⟨?_, ih hnd.2⟩
      intro hc
      rcases (applyDelta_keys_mem k v k' rest).1 hc with h | h
      · exact hnd.1 h
      · exact hk h

theorem processInputEntry_ok_keys_nodup (d : DenomDefinition) (num den : Int)
    (ch : DeltaList) (input : Balance) (ch' : DeltaList)
    (h : processInputEntry d num den ch input = .ok ch')
    (hnd : (ch.map Prod.fst).Nodup) : (ch'.map Prod.fst).Nodup := by
  cases hfc : find_coin input.coins d.denom with
  | none => rw [processInputEntry_ok_none d num den ch input ch' hfc h]; exact hnd
  | some coin =>
    rw [processInputEntry_ok_some d num den ch input ch' coin hfc h]
    exact applyDelta_keys_nodup _ _ _ (applyDelta_keys_nodup _ _ _ hnd)

theorem process_input_go_keys_nodup (d : DenomDefinition) (num den : Int) :
    ∀ (inputs : List Balance) (ch ch' : DeltaList),
      process_input_go d num den inputs ch = .ok ch' →
      (ch.map Prod.fst).Nodup → (ch'.map Prod.fst).Nodup := by
  intro inputs
  induction inputs with
  | nil =>
    intro ch ch' h hnd
    simp only [process_input_go] at h
    rw [← Except.ok.inj h]
    exact hnd
  | cons input rest ih =>
    intro ch ch' h hnd
    rw [process_input_go] at h
    cases hpe : processInputEntry d num den ch input with
    | error e => rw [hpe] at h; cases h
    | ok ch1 =>
      rw [hpe] at h
      exact ih ch1 ch' h (processInputEntry_ok_keys_nodup d num den ch input ch1 hpe hnd)

theorem process_output_go_keys_nodup (d : DenomDefinition) :
    ∀ (outputs : List Balance) (ch : DeltaList),
      (ch.map Prod.fst).Nodup → ((process_output_go d outputs ch).map Prod.fst).Nodup := by
  intro outputs
  induction outputs with
  | nil => intro ch hnd; exact hnd
  | cons out rest ih =>
    intro ch hnd
    rw [process_output_go]
    cases hfc : find_coin out.coins d.denom with
    | none => exact ih ch hnd
    | some coin => exact ih _ (applyDelta_keys_nodup _ _ _ hnd)

theorem process_keys_nodup (tx : MultiSend) :
    ∀ (defs : List DenomDefinition) (ch m : DeltaList),
      tx.process defs ch = .ok m →
      (ch.map Prod.fst).Nodup → (m.map Prod.fst).Nodup := by
  intro defs
  induction defs with
  | nil =>
    intro ch m h hnd
    rw [MultiSend.process] at h
    rw [← Except.ok.inj h]
    exact hnd
  | cons d0 rest ih =>
    intro ch m h hnd
    rw [MultiSend.process] at h
    cases hv : validate_inout tx d0 with
    | error e => rw [hv] at h; cases h
    | ok u =>
      rw [hv] at h
      cases hpi : process_input tx d0 ch with
      | error e => rw [hpi] at h; cases h
      | ok ch1 =>
        rw [hpi] at h
        have h1 : (ch1.map Prod.fst).Nodup := by
          rw [process_input_eq_go] at hpi
          exact process_input_go_keys_nodup d0 _ _ tx.inputs ch ch1 hpi hnd
        exact ih (process_output tx d0 ch1) m h (process_output_go_keys_nodup d0 tx.outputs ch1 h1)

theorem coinTriples_cons (b : Balance) (bs : List Balance) :
    coinTriples (b :: bs) =
      b.coins.map (fun c => (b.address, c)) ++ coinTriples bs := by
  simp [coinTriples]

theorem mem_coinTriples (bs : List Balance) (t : String × Coin) :
    t ∈ coinTriples bs ↔ ∃ b ∈ bs, b.address = t.1 ∧ t.2 ∈ b.coins := by
  simp only [coinTriples, List.mem_flatMap, List.mem_map]
  constructor
  · rintro ⟨b, hb, c, hc, heq⟩
    obtain ⟨t1, t2⟩ := t
    cases heq
    exact ⟨b, hb, rfl, hc⟩
  · rintro ⟨b, hb, ha, hc⟩
    exact ⟨b, hb, t.2, hc, by rw [ha]⟩

theorem pushCoin_triples_perm (addr : String) (c : Coin) :
    ∀ bs : List Balance,
      (coinTriples (pushCoin bs addr c)).Perm ((addr, c) :: coinTriples bs) := by
  intro bs
  induction bs with
  | nil => simp [pushCoin, coinTriples]
  | cons b rest ih =>
    by_cases hb : b.address = addr
    · rw [pushCoin, if_pos hb, coinTriples_cons, coinTriples_cons]
      simp only [List.map_append, List.map_cons, List.map_nil, hb]
      have : (List.map (fun x => (addr, x)) b.coins ++ [(addr, c)]) ++ coinTriples rest =
          List.map (fun x => (addr, x)) b.coins ++ (addr, c) :: coinTriples rest := by
        simp
      rw [this]
      exact List.perm_middle
    · rw [pushCoin, if_neg hb, coinTriples_cons, coinTriples_cons]
      exact (ih.append_left _).trans List.perm_middle

theorem pushCoin_addresses_mem (addr : String) (c : Coin) (x : String) :
    ∀ bs : List Balance,
      (x ∈ addressesOf (pushCoin bs addr c) ↔ x ∈ addressesOf bs ∨ x = addr) := by
  intro bs
  induction bs with
  | nil => simp [pushCoin, addressesOf]
  | cons b rest ih =>
    by_cases hb : b.address = addr
    · rw [pushCoin, if_pos hb]
      simp only [addressesOf, List.map_cons, List.mem_cons]
      constructor
      · rintro (h | h)
        · exact Or.inl (Or.inl h)
        · exact Or.inl (Or.inr h)
      · rintro ((h | h) | h)
        · exact Or.inl h
        · exact Or.inr h
        · exact Or.inl (hb ▸ h)
    · rw [pushCoin, if_neg hb]
      simp only [addressesOf, List.map_cons, List.mem_cons] at *
      rw [ih]
      tauto

theorem pushCoin_addresses_nodup (addr : String) (c : Coin) :
    ∀ bs : List Balance,
      (addressesOf bs).Nodup → (addressesOf (pushCoin bs addr c)).Nodup := by
  intro bs
  induction bs with
  | nil => intro _; simp [pushCoin, addressesOf]
  | cons b rest ih =>
    intro hnd
    simp only [addressesOf, List.map_cons, List.nodup_cons] at hnd
    by_cases hb : b.address = addr
    · rw [pushCoin, if_pos hb]
      simp only [addressesOf, List.map_cons, List.nodup_cons]
      exact hnd
    · rw [pushCoin, if_neg hb]
      simp only [addressesOf, List.map_cons, List.nodup_cons]
      refine ⟨?_, ih hnd.2⟩
      intro hc
      rcases (pushCoin_addresses_mem addr c b.address rest).1 hc with h | h
      · exact hnd.1 h
      · exact hb h

theorem pushCoin_coins_nonempty (addr : String) (c : Coin) :
    ∀ bs : List Balance,
      (∀ b ∈ bs, b.coins ≠ []) → ∀ b ∈ pushCoin bs addr c, b.coins ≠ [] := by
  intro bs
  induction bs with
  | nil =>
    intro _ b hb
    simp only [pushCoin, List.mem_singleton] at hb
    subst hb
    simp
  | cons b0 rest ih =>
    intro hne b hb
    by_cases hb0 : b0.address = addr
    · rw [pushCoin, if_pos hb0] at hb
      rcases List.mem_cons.1 hb with rfl | hb'
      · simp
      · exact hne b (List.mem_cons_of_mem _ hb')
    · rw [pushCoin, if_neg hb0] at hb
      rcases List.mem_cons.1 hb with rfl | hb'
      · exact hne b (List.mem_cons_self _ _)
      · exact ih (fun x hx => hne x (List.mem_cons_of_mem _ hx)) b hb'

theorem from_hashmap_go_spec :
    ∀ (entries : DeltaList) (bs : List Balance),
      (∀ b ∈ bs, b.coins ≠ []) →
      (addressesOf bs).Nodup →
      (pairsOf bs).Nodup →
      (∀ k ∈ entries.map Prod.fst, k ∉ pairsOf bs) →
      (entries.map Prod.fst).Nodup →
      ((∀ b ∈ from_hashmap_go entries bs, b.coins ≠ []) ∧
       (addressesOf (from_hashmap_go entries bs)).Nodup ∧
       (pairsOf (from_hashmap_go entries bs)).Nodup ∧
       (∀ t : String × Coin, t ∈ coinTriples (from_hashmap_go entries bs) ↔
         t ∈ coinTriples bs ∨
           (((t.1, t.2.denom), t.2.amount) ∈ entries ∧ t.2.amount ≠ 0))) := by
  intro entries
  induction entries with
  | nil =>
    intro bs h1 h2 h3 _ _
    refine ⟨h1, h2, h3, ?_⟩
    intro t
    simp [from_hashmap_go]
  | cons kv rest ih =>
    obtain ⟨k, v⟩ := kv
    intro bs h1 h2 h3 hks hknd
    simp only [List.map_cons, List.nodup_cons] at hknd
    rw [from_hashmap_go]
    by_cases hv : v = 0
    · rw [if_pos hv]
      have hks' : ∀ x ∈ rest.map Prod.fst, x ∉ pairsOf bs :=
        fun x hx => hks x (List.mem_cons_of_mem _ hx)
      obtain ⟨g1, g2, g3, g4⟩ := ih bs h1 h2 h3 hks' hknd.2
      refine ⟨g1, g2, g3, ?_⟩
      intro t
      rw [g4 t]
      constructor
      · rintro (h | ⟨hm, hz⟩)
        · exact Or.inl h
        · exact Or.inr ⟨List.mem_cons_of_mem _ hm, hz⟩
      · rintro (h | ⟨hm, hz⟩)
        · exact Or.inl h
        · rcases List.mem_cons.1 hm with heq | hm'
          · exfalso
            apply hz
            have := congrArg Prod.snd heq
            simpa [hv] using this
          · exact Or.inr ⟨hm', hz⟩
    · rw [if_neg hv]
      have hkmem : k ∉ pairsOf bs := hks k (List.mem_cons_self _ _)
      have hb1 : ∀ b ∈ pushCoin bs k.1 ⟨k.2, v⟩, b.coins ≠ [] :=
        pushCoin_coins_nonempty _ _ bs h1
      have hb2 : (addressesOf (pushCoin bs k.1 ⟨k.2, v⟩)).Nodup :=
        pushCoin_addresses_nodup _ _ bs h2
      have hperm := pushCoin_triples_perm k.1 ⟨k.2, v⟩ bs
      have hpairs : (pairsOf (pushCoin bs k.1 ⟨k.2, v⟩)).Perm (k :: pairsOf bs) := by
        have hm := hperm.map (fun t => (t.1, t.2.denom))
        simpa [pairsOf] using hm
      have hb3 : (pairsOf (pushCoin bs k.1 ⟨k.2, v⟩)).Nodup := by
        rw [hpairs.nodup_iff]
        exact List.nodup_cons.2 ⟨hkmem, h3⟩
      have hks' : ∀ x ∈ rest.map Prod.fst, x ∉ pairsOf (pushCoin bs k.1 ⟨k.2, v⟩) := by
        intro x hx hc
        rcases List.mem_cons.1 (hpairs.mem_iff.1 hc) with h | h
        · exact hknd.1 (h ▸ hx)
        · exact hks x (List.mem_cons_of_mem _ hx) h
      obtain ⟨g1, g2, g3, g4⟩ := ih _ hb1 hb2 hb3 hks' hknd.2
      refine ⟨g1, g2, g3, ?_⟩
      intro t
      rw [g4 t]
      have htrip : t ∈ coinTriples (pushCoin bs k.1 ⟨k.2, v⟩) ↔
          t = (k.1, ⟨k.2, v⟩) ∨ t ∈ coinTriples bs := by
        rw [hperm.mem_iff, List.mem_cons]
      rw [htrip]
      constructor
      · rintro ((heq | h) | ⟨hm, hz⟩)
        · subst heq
          exact Or.inr ⟨List.mem_cons_self _ _, hv⟩
        · exact Or.inl h
        · exact Or.inr ⟨List.mem_cons_of_mem _ hm, hz⟩
      · rintro (h | ⟨hm, hz⟩)
        · exact Or.inl (Or.inr h)
        · rcases List.mem_cons.1 hm with heq | hm'
          · refine Or.inl (Or.inl ?_)
            obtain ⟨ta, tc⟩ := t
            obtain ⟨cd, ca⟩ := tc
            rw [Prod.ext_iff] at heq
            obtain ⟨h12, hamt⟩ := heq
            rw [Prod.ext_iff] at h12
            obtain ⟨ha', hd'⟩ := h12
            simp only at ha' hd' hamt
            subst ha'
            subst hd'
            subst hamt
            rfl
          · exact Or.inr ⟨hm', hz⟩

/-- C8: whenever the call returns Ok(result) (with final delta map m from
denom processing), the result has pairwise distinct addresses, every
Balance carries at least one coin, every coin amount is non-zero, every
(address, denom) pair appears at most once across the whole result, every
non-zero delta of m appears as a coin of its address's Balance, and every
coin of the result is a delta of m (so zero deltas are omitted and each
address with a non-zero delta gets exactly one Balance). -/
theorem C8_result_shape (ob : List Balance) (defs : List DenomDefinition)
    (tx : MultiSend) (m : DeltaList) (res : List Balance)
    (hp : tx.process defs [] = .ok m)
    (hok : calculate_balance_changes ob defs tx = .ok res) :
    (addressesOf res).Nodup ∧
    (∀ b ∈ res, b.coins ≠ []) ∧
    (∀ b ∈ res, ∀ c ∈ b.coins, c.amount ≠ 0) ∧
    (pairsOf res).Nodup ∧
    (∀ kv ∈ m, kv.2 ≠ 0 →
      ∃ b ∈ res, b.address = kv.1.1 ∧ (⟨kv.1.2, kv.2⟩ : Coin) ∈ b.coins) ∧
    (∀ b ∈ res, ∀ c ∈ b.coins, ((b.address, c.denom), c.amount) ∈ m) := by
  obtain ⟨m', hp', hins, hres⟩ := calculate_ok_inv ob defs tx res hok
  rw [hp] at hp'
  have hm' : m = m' := Except.ok.inj hp'
  subst hm'
  have hknd : (m.map Prod.fst).Nodup := process_keys_nodup tx defs [] m hp (by simp)
  obtain ⟨g1, g2, g3, g4⟩ := from_hashmap_go_spec m []
    (by intro b hb; cases hb) (by simp [addressesOf]) (by simp [pairsOf, coinTriples])
    (by intro k _; simp [pairsOf, coinTriples]) hknd
  have hfg : res = from_hashmap_go m [] := hres
  subst hfg
  refine ⟨g2, g1, ?_, g3, ?_, ?_⟩
  · intro b hb c hc
    have ht : (b.address, c) ∈ coinTriples (from_hashmap_go m []) :=
      (mem_coinTriples _ _).2 ⟨b, hb, rfl, hc⟩
    rcases (g4 (b.address, c)).1 ht with h | ⟨_, hz⟩
    · simp [coinTriples] at h
    · exact hz
  · intro kv hkv hz
    have hmem : ((kv.1.1, (⟨kv.1.2, kv.2⟩ : Coin).denom),
        (⟨kv.1.2, kv.2⟩ : Coin).amount) ∈ m := by
      simpa using hkv
    have ht := (g4 (kv.1.1, ⟨kv.1.2, kv.2⟩)).2 (Or.inr ⟨hmem, hz⟩)
    obtain ⟨b, hb, hba, hbc⟩ := (mem_coinTriples _ _).1 ht
    exact ⟨b, hb, hba, hbc⟩
  · intro b hb c hc
    have ht : (b.address, c) ∈ coinTriples (from_hashmap_go m []) :=
      (mem_coinTriples _ _).2 ⟨b, hb, rfl, hc⟩
    rcases (g4 (b.address, c)).1 ht with h | ⟨hm2, _⟩
    · simp [coinTriples] at h
    · exact hm2

/-- Witness for C8 at scenario S2: the four returned addresses are distinct. -/
theorem C8_result_shape_witness :
    (addressesOf
      [⟨"account1", [⟨"denom1", -715⟩]⟩, ⟨"issuer_account_A", [⟨"denom1", 560⟩]⟩,
       ⟨"account2", [⟨"denom1", -385⟩]⟩, ⟨"account_recipient", [⟨"denom1", 500⟩]⟩]).Nodup :=
  (C8_result_shape obS2 [defS2] txS2
    [(("account1", "denom1"), -715), (("issuer_account_A", "denom1"), 560),
     (("account2", "denom1"), -385), (("account_recipient", "denom1"), 500)]
    [⟨"account1", [⟨"denom1", -715⟩]⟩, ⟨"issuer_account_A", [⟨"denom1", 560⟩]⟩,
     ⟨"account2", [⟨"denom1", -385⟩]⟩, ⟨"account_recipient", [⟨"denom1", 500⟩]⟩]
    (by rfl) (by rfl)).1

/-! Totality on the overflow-free domain (claim C10). -/

/-- C10 counterexample: the source's `i128` sum in `get_coin_sum` is not
total.  Over the coins [2^127 - 1, 2^127 - 1, 7] the second overflow-checked
addition has no value — under overflow checks (the default for debug and
test builds) the program panics instead of returning Ok or Err, and in a
release build the sum wraps to 5 instead of the exact 2^128 + 5 the model
computes. -/
theorem C10_counterexample :
    get_coin_sum_checked
      [⟨"b1", [⟨"d", 2 ^ 127 - 1⟩]⟩, ⟨"b2", [⟨"d", 2 ^ 127 - 1⟩]⟩, ⟨"b3", [⟨"d", 7⟩]⟩]
      "d" = none ∧
    get_coin_sum
      [⟨"b1", [⟨"d", 2 ^ 127 - 1⟩]⟩, ⟨"b2", [⟨"d", 2 ^ 127 - 1⟩]⟩, ⟨"b3", [⟨"d", 7⟩]⟩]
      "d" = 2 ^ 128 + 5 ∧
    ((2 ^ 128 + 5 : Int) % 2 ^ 128 + 2 ^ 127) % 2 ^ 128 - 2 ^ 127 = 5 := by
  refine ⟨by decide, by decide, by decide⟩

theorem process_ok_or_mismatch (tx : MultiSend) :
    ∀ (defs : List DenomDefinition) (ch : DeltaList),
      txAmountsNonneg tx →
      (∀ d ∈ defs, get_coin_sum tx.inputs d.denom < DECIMAL_LIMIT ∧
        get_coin_sum tx.outputs d.denom < DECIMAL_LIMIT) →
      (∀ d ∈ defs, 0 ≤ d.burn_rate ∧ d.burn_rate ≤ 1 ∧
        0 ≤ d.commission_rate ∧ d.commission_rate ≤ 1) →
      (∃ m, tx.process defs ch = .ok m) ∨
        tx.process defs ch = .error "Input and output mismatch" := by
  intro defs
  induction defs with
  | nil =>
    intro ch _ _ _
    exact Or.inl ⟨ch, rfl⟩
  | cons d0 rest ih =>
    intro ch hnn hlim hrates
    rw [MultiSend.process]
    by_cases hv : get_coin_sum tx.inputs d0.denom = get_coin_sum tx.outputs d0.denom
    · have hvok : validate_inout tx d0 = .ok () := by
        unfold validate_inout
        rw [if_neg (not_not_intro hv)]
      rw [hvok]
      obtain ⟨hr1, hr2, hr3, hr4⟩ := hrates d0 (List.mem_cons_self _ _)
      obtain ⟨ch1, h1⟩ := process_input_ok_of_bounds tx d0 ch hnn
        (hlim d0 (List.mem_cons_self _ _)).1 (hlim d0 (List.mem_cons_self _ _)).2
        hr1 hr2 hr3 hr4
      rw [h1]
      exact ih (process_output tx d0 ch1)
        hnn (fun x hx => hlim x (List.mem_cons_of_mem _ hx))
        (fun x hx => hrates x (List.mem_cons_of_mem _ hx))
    · have hverr : validate_inout tx d0 = .error "Input and output mismatch" := by
        unfold validate_inout
        rw [if_pos hv]
      rw [hverr]
      exact Or.inr rfl

/-- C10 amended: on transactions with non-negative amounts whose per-denom
totals stay within the 96-bit `Decimal::from_i128` range and whose rates
lie in [0, 1], `calculate_balance_changes` is total: the source's `i128`
sums cannot overflow there and agree with the model's exact sums (first
conjunct), no `Decimal` conversion or division can fail, and every run
returns Ok or the InputOutputMismatch or InsufficientBalance error value;
the original-balance lookup of the solvency loop is handled by a total
match.  (Outside this domain the source's `i128` arithmetic can overflow —
a panic under overflow checks — see the counterexample.) -/
theorem C10_totality_bounded (ob : List Balance) (defs : List DenomDefinition)
    (tx : MultiSend)
    (hnn : txAmountsNonneg tx)
    (hlim : ∀ d ∈ defs, get_coin_sum tx.inputs d.denom < DECIMAL_LIMIT ∧
      get_coin_sum tx.outputs d.denom < DECIMAL_LIMIT)
    (hrates : ∀ d ∈ defs, 0 ≤ d.burn_rate ∧ d.burn_rate ≤ 1 ∧
      0 ≤ d.commission_rate ∧ d.commission_rate ≤ 1) :
    (∀ d ∈ defs,
      get_coin_sum_checked tx.inputs d.denom = some (get_coin_sum tx.inputs d.denom) ∧
      get_coin_sum_checked tx.outputs d.denom = some (get_coin_sum tx.outputs d.denom)) ∧
    ((calculate_balance_changes ob defs tx).isOk = true ∨
      calculate_balance_changes ob defs tx = .error "Input and output mismatch" ∨
      calculate_balance_changes ob defs tx = .error "Insufficient balance") := by
  have hmaxlim : DECIMAL_LIMIT ≤ I128_MAX := by norm_num [DECIMAL_LIMIT, I128_MAX]
  constructor
  · intro d hd
    constructor
    · exact get_coin_sum_checked_eq tx.inputs d.denom (txNonneg_inputs tx hnn)
        (le_trans (le_of_lt (hlim d hd).1) hmaxlim)
    · exact get_coin_sum_checked_eq tx.outputs d.denom (txNonneg_outputs tx hnn)
        (le_trans (le_of_lt (hlim d hd).2) hmaxlim)
  · rcases process_ok_or_mismatch tx defs [] hnn hlim hrates with ⟨m, hm⟩ | hm
    · rw [calculate_eq_of_process_ok ob defs tx m hm]
      by_cases hin : m.any (insolventEntry (to_hashmap ob)) = true
      · rw [if_pos hin]
        exact Or.inr (Or.inr rfl)
      · rw [if_neg hin]
        exact Or.inl rfl
    · refine Or.inr (Or.inl ?_)
      unfold calculate_balance_changes
      rw [hm]

/-- Witness for C10's amended statement at scenario S2: the bounds hold and
the call returns Ok. -/
theorem C10_totality_bounded_witness :
    (calculate_balance_changes obS2 [defS2] txS2).isOk = true ∨
    calculate_balance_changes obS2 [defS2] txS2 = .error "Input and output mismatch" ∨
    calculate_balance_changes obS2 [defS2] txS2 = .error "Insufficient balance" :=
  (C10_totality_bounded obS2 [defS2] txS2
    (by unfold txAmountsNonneg; decide) (by decide) (by decide)).2
